import Mathlib

/-!
Verification of the capability-negotiation and argument-validation core of
`packages/appium/lib/utils.js`.

Shallow embedding conventions:
* JavaScript object keys are character lists (`CapKey`); a JavaScript object
  is an association list with unique keys, built exclusively through
  `objSet`, which mirrors property assignment (`obj[k] = v`): an existing
  key is updated in place, a new key is appended (JS insertion order).
* JSON-compatible values are the inductive `Value` (tagged variant).
* Functions that mutate an argument in place are translated by explicit
  state passing: they return the post-call value of the mutated argument
  alongside their result.  A small reference heap model is used where the
  claim under analysis is itself about aliasing/mutation.
* External collaborators (`processCapabilities`, `validateCaps`,
  `parseJsonStringOrFile`) live outside this repository; they are taken as
  explicit function parameters, as the spec treats them as opaque.
-/

/-- A JavaScript object key (string), modelled as a character list. -/
abbrev CapKey := List Char

/-- JSON-compatible value: tagged variant per the data model. -/
inductive Value where
  | null : Value
  | bool (b : Bool) : Value
  | num (n : Int) : Value
  | str (s : CapKey) : Value
  | obj (entries : List (CapKey × Value)) : Value
  | arr (elems : List Value) : Value

instance : Inhabited Value := ⟨Value.null⟩

/-- A plain JavaScript object holding capability-like data. -/
abbrev Dict := List (CapKey × Value)

/-- Property assignment `d[k] = v`: update in place if `k` is present
(keeping its position, as JS objects do), otherwise append. -/
def objSet (d : Dict) (k : CapKey) (v : Value) : Dict :=
  if d.any (fun p => p.1 = k) then
    d.map (fun p => if p.1 = k then (k, v) else p)
  else
    d ++ [(k, v)]

/-- `_.has(d, k)`: membership of a top-level key. -/
def objHas (d : Dict) (k : CapKey) : Bool :=
  d.any (fun p => p.1 = k)

/-- Property lookup `d[k]` (first binding; bindings are unique). -/
def objGet (d : Dict) (k : CapKey) : Option Value :=
  (d.find? (fun p => p.1 = k)).map (fun p => p.2)

/-- `delete d[k]`. -/
def objDelete (d : Dict) (k : CapKey) : Dict :=
  d.filter (fun p => ¬(p.1 = k))

/-- `_.assign(target, src)` / `Object.assign(target, src)`: copy every own
key of `src` onto `target`, in order; returns the updated target. -/
def lodashAssign (target src : Dict) : Dict :=
  src.foldl (fun acc p => objSet acc p.1 p.2) target

/- ---------------------------------------------------------------------
PrefixCodec: `insertAppiumPrefixes`, `removeAppiumPrefixes`,
`removeAppiumPrefix` (utils.js lines 188-228).
--------------------------------------------------------------------- -/

/-- `W3C_APPIUM_PREFIX` constant. -/
def W3C_APPIUM_PREFIX : CapKey := "appium".toList

/-- The fixed list of standard, non-prefixed W3C capability names. -/
def STANDARD_CAPS : List CapKey :=
  ["browserName".toList,
   "browserVersion".toList,
   "platformName".toList,
   "acceptInsecureCerts".toList,
   "pageLoadStrategy".toList,
   "proxy".toList,
   "setWindowRect".toList,
   "timeouts".toList,
   "unhandledPromptBehavior".toList]

/-- `insertAppiumPrefixes(caps)`: prefix every non-standard, not already
namespaced key with `appium:`. -/
def insertAppiumPrefixes (caps : Dict) : Dict :=
  caps.foldl
    (fun prefixedCaps p =>
      if STANDARD_CAPS.contains p.1 ∨ p.1.contains ':' then
        objSet prefixedCaps p.1 p.2
      else
        objSet prefixedCaps (W3C_APPIUM_PREFIX ++ [':'] ++ p.1) p.2)
    []

/-- `removeAppiumPrefix(key)`: strip a leading `appium:` if present. -/
def removeAppiumPrefix (key : CapKey) : CapKey :=
  let pre : CapKey := W3C_APPIUM_PREFIX ++ [':']
  if pre.isPrefixOf key then key.drop pre.length else key

/-- `removeAppiumPrefixes(caps)` on a plain object (the non-object
identity branch of the source is outside the typed model). -/
def removeAppiumPrefixes (caps : Dict) : Dict :=
  caps.foldl (fun fixedCaps p => objSet fixedCaps (removeAppiumPrefix p.1) p.2) []

/- ---------------------------------------------------------------------
SettingsExtractor: `pullSettings` (utils.js lines 251-267).
--------------------------------------------------------------------- -/

/-- JS regex word character (`\w` is exactly `[A-Za-z0-9_]`). -/
def isWordChar (c : Char) : Bool :=
  c.isAlpha ∨ c.isDigit ∨ c = '_'

/-- JS regex whitespace (`\s`), restricted to its ASCII members; the
Unicode space characters also matched by `\s` do not occur in any
capability key considered here. -/
def isSpaceJS (c : Char) : Bool :=
  c = ' ' ∨ c = '\t' ∨ c = '\n' ∨ c = '\r' ∨ c = '\x0b' ∨ c = '\x0c'

/-- The literal `settings[` scanned for by the extraction regex. -/
def settingsLit : CapKey := "settings[".toList

/-- The `\b` test before the `s` of `settings` (a word character): the
boundary holds exactly when the preceding character is absent or a
non-word character. -/
def prevBoundary : Option Char → Bool
  | none => true
  | some p => !isWordChar p

/-- Execution of `/\bsettings\[(\S+)\]$/.exec(key)` on the suffix `s` of
the key, where `prev` is the character immediately before `s` (`none` at
the start of the key).  Because the pattern is anchored at the end, a
match starting at a given occurrence of `settings[` forces the captured
group to be everything between that occurrence and the final `]`; the
engine returns the leftmost position at which this succeeds, and `\b`
holds exactly when the preceding character is absent or a non-word
character (the `s` of `settings` being a word character). -/
def settingsExec : Option Char → List Char → Option (List Char)
  | _, [] => none
  | prev, c :: cs =>
    if prevBoundary prev = true ∧ settingsLit.isPrefixOf (c :: cs) = true then
      let rest := (c :: cs).drop settingsLit.length
      if 2 ≤ rest.length ∧ rest.getLast? = some ']' ∧
          rest.dropLast.all (fun ch => !isSpaceJS ch) = true then
        some rest.dropLast
      else
        settingsExec (some c) cs
    else
      settingsExec (some c) cs

/-- The language of `/\bsettings\[(\S+)\]$/` with captured group `name`:
the key ends with `settings[<name>]` for a non-empty all-non-whitespace
`name`, and that occurrence of `settings` sits at a word boundary (start
of the key or preceded by a non-word character). -/
def SettingsKeySpec (key name : CapKey) : Prop :=
  ∃ pre, key = pre ++ settingsLit ++ name ++ [']'] ∧
    name ≠ [] ∧ (∀ ch ∈ name, isSpaceJS ch = false) ∧
    (pre = [] ∨ ∃ pre' c, pre = pre' ++ [c] ∧ isWordChar c = false)

/-- `pullSettings(caps)`: extract `settings[name]` entries.  The source
mutates `caps` in place (`delete caps[key]`); the translation returns the
pair (result, post-call value of `caps`). -/
def pullSettings (caps : Dict) : Dict × Dict :=
  if caps.isEmpty then ([], caps)
  else
    caps.foldl
      (fun acc p =>
        match settingsExec none p.1 with
        | some name => (objSet acc.1 name p.2, objDelete acc.2 p.1)
        | none => acc)
      ([], caps)

/- ---------------------------------------------------------------------
ArgConstraintValidator: `parseExtensionArgs`, `parseKnownArgs`,
`parseDriverPluginArgs` (utils.js lines 37-83).
--------------------------------------------------------------------- -/

/-- An opaque validation rule; its interpretation belongs to the external
constraint-validation collaborator. -/
structure Constraint where
  mk ::
deriving DecidableEq

/-- A constraints specification: argument name to validation rule. -/
abbrev Constraints := List (CapKey × Constraint)

/-- The errors thrown by the argument-validation component.
`invalidArgumentShape` is `Error('Driver or plugin arguments must be
plain objects')`; `unknownArgument name` is `Error('"<name>" is not a
recognized key ...')`; `validationFailure` stands for whatever error the
external `validateCaps` collaborator throws. -/
inductive ArgError where
  | invalidArgumentShape : ArgError
  | unknownArgument (name : CapKey) : ArgError
  | validationFailure : ArgError
deriving DecidableEq

/-- `parseExtensionArgs(extensionArgs, extensionName)`.  The blob loader
`parseJsonStringOrFile` is external (`./cli/parser-helpers`), so it is a
parameter `parse`; per the claim's scope the blob parses to a mapping.
`extensionArgs = none` models a non-string input (`!_.isString`). -/
def parseExtensionArgs (parse : String → List (CapKey × Value))
    (extensionArgs : Option String) (extensionName : CapKey) :
    Except ArgError Dict :=
  match extensionArgs with
  | none => .ok []
  | some s =>
    let parsedExtensionArgs := parse s
    match objGet parsedExtensionArgs extensionName with
    | some (.obj d) => .ok d
    | some _ => .error .invalidArgumentShape
    | none => .error .invalidArgumentShape

/-- The accumulator loop of `parseKnownArgs`'s `reduce`. -/
def parseKnownArgsLoop (knownArgNames : List CapKey) (args : Dict) :
    Dict → Except ArgError Dict
  | [] => .ok args
  | (argName, argValue) :: rest =>
    if knownArgNames.contains argName then
      parseKnownArgsLoop knownArgNames (objSet args argName argValue) rest
    else
      .error (.unknownArgument argName)

/-- `parseKnownArgs(driverPluginArgs, argsConstraints)`. -/
def parseKnownArgs (driverPluginArgs : Dict) (argsConstraints : Constraints) :
    Except ArgError Dict :=
  parseKnownArgsLoop (argsConstraints.map (fun p => p.1)) [] driverPluginArgs

/-- `parseDriverPluginArgs(args, driverPluginArgs, argsConstraints)`.
`validateCaps` is the external validator, passed as `validate`.  The
source's `_.assign(args, parsedArgs)` mutates `args` in place, so the
translation returns (return value, post-call value of `args`); on the
short-circuit branch `args` is returned untouched. -/
def parseDriverPluginArgs
    (validate : Dict → Constraints → Except ArgError Dict)
    (args driverPluginArgs : Dict) (argsConstraints : Constraints) :
    Except ArgError (Dict × Dict) :=
  if driverPluginArgs.isEmpty ∨ argsConstraints.isEmpty then
    .ok (args, args)
  else
    match parseKnownArgs driverPluginArgs argsConstraints with
    | .error e => .error e
    | .ok parsedArgs =>
      match validate parsedArgs argsConstraints with
      | .error e => .error e
      | .ok validated =>
        let merged := lodashAssign args validated
        .ok (merged, merged)

/- ---------------------------------------------------------------------
CapabilityNegotiator: `parseCapsForInnerDriver` (utils.js lines 95-182).
--------------------------------------------------------------------- -/

/-- A W3C capabilities payload: both fields optional in the input
(`none` models an absent field). -/
structure W3CCaps where
  alwaysMatch : Option Dict
  firstMatch : Option (List Dict)

/-- One iteration of the default-capability injection loop
(utils.js lines 121-144) for the pair `(defaultCapKey, defaultCapValue)`
against the current (cloned) W3C payload. -/
def applyDefaultStep (w3cCapabilities : W3CCaps)
    (defaultCapKey : CapKey) (defaultCapValue : Value) : W3CCaps :=
  let inFirstMatch : Bool :=
    (w3cCapabilities.firstMatch.getD []).any
      (fun firstMatchEntry =>
        objHas (removeAppiumPrefixes firstMatchEntry)
          (removeAppiumPrefix defaultCapKey))
  let isCapAlreadySet : Bool :=
    inFirstMatch ||
      (match w3cCapabilities.alwaysMatch with
       | some am => objHas (removeAppiumPrefixes am)
           (removeAppiumPrefix defaultCapKey)
       | none => false)
  if isCapAlreadySet then
    w3cCapabilities
  else
    match w3cCapabilities.firstMatch with
    | none => { w3cCapabilities with
        firstMatch := some [[(defaultCapKey, defaultCapValue)]] }
    | some [] => { w3cCapabilities with
        firstMatch := some [[(defaultCapKey, defaultCapValue)]] }
    | some (fm0 :: fmRest) => { w3cCapabilities with
        firstMatch := some (objSet fm0 defaultCapKey defaultCapValue :: fmRest) }

/-- The whole default-capability injection loop (utils.js lines 121-145):
the defaults dictionary is walked in order, each pair mutating the local
(cloned) payload. -/
def applyDefaultsW3C (defaultCapabilities : Dict) (w3cCapabilities : W3CCaps) :
    W3CCaps :=
  defaultCapabilities.foldl
    (fun caps p => applyDefaultStep caps p.1 p.2) w3cCapabilities

/-- An equivalent key for `key` — compared after stripping the vendor
prefix on both sides — exists in some `firstMatch` entry or in
`alwaysMatch` of the payload. -/
def EquivKeyPresent (w3cCapabilities : W3CCaps) (key : CapKey) : Prop :=
  (∃ fm ∈ w3cCapabilities.firstMatch.getD [],
    objHas (removeAppiumPrefixes fm) (removeAppiumPrefix key) = true) ∨
  (∃ am, w3cCapabilities.alwaysMatch = some am ∧
    objHas (removeAppiumPrefixes am) (removeAppiumPrefix key) = true)

/-- The `PROTOCOLS` enum of `@appium/base-driver`:
`{W3C: 'W3C', MJSONWP: 'MJSONWP'}`. -/
inductive Protocol where
  | w3c : Protocol
  | mjsonwp : Protocol
deriving DecidableEq

/-- The processed W3C payload placed in a successful result. -/
structure ProcessedW3C where
  alwaysMatch : Dict
  firstMatch : List Dict

/-- The object returned by `parseCapsForInnerDriver`.  A field the
source's return object omits is `none` (reading it yields `undefined`);
`error` is the engine's message, or the fixed missing-W3C message. -/
structure NegotiationResult where
  desiredCaps : Option Dict
  processedJsonwpCapabilities : Option Dict
  processedW3CCapabilities : Option ProcessedW3C
  protocol : Protocol
  error : Option String

/-- The type of the external matching engine `processCapabilities`
(from `@appium/base-driver`), always invoked with `shouldValidateCaps`
true; it returns the matched flat capability mapping or throws. -/
abbrev MatchingEngine := W3CCaps → Constraints → Except String Dict

/-- `parseCapsForInnerDriver(jsonwpCapabilities, w3cCapabilities,
constraints, defaultCapabilities)`.  `jsonwpCapabilities = none` models a
non-plain-object legacy argument, `w3cCapabilities = none` a
non-plain-object W3C argument.  The deep clones of lines 114-117 bind
local copies, so the pure translation simply works on the values; the
aliasing content of those lines is verified separately on the heap
model below. -/
def parseCapsForInnerDriver (processCapabilities : MatchingEngine)
    (jsonwpCapabilities : Option Dict) (w3cCapabilities : Option W3CCaps)
    (constraints : Constraints) (defaultCapabilities : Dict) :
    NegotiationResult :=
  let hasW3CCaps : Bool :=
    match w3cCapabilities with
    | some c => c.alwaysMatch.isSome ∨ c.firstMatch.isSome
    | none => false
  let hasJSONWPCaps : Bool := jsonwpCapabilities.isSome
  if ¬hasW3CCaps then
    { desiredCaps := none
      processedJsonwpCapabilities := none
      processedW3CCapabilities := none
      protocol := .w3c
      error := some "W3C capabilities should be provided" }
  else
    let w3c := w3cCapabilities.getD ⟨none, none⟩
    let w3c :=
      if ¬defaultCapabilities.isEmpty then
        applyDefaultsW3C defaultCapabilities w3c
      else w3c
    let jsonwp :=
      if ¬defaultCapabilities.isEmpty ∧ hasJSONWPCaps then
        some (lodashAssign
          (lodashAssign [] (removeAppiumPrefixes defaultCapabilities))
          (jsonwpCapabilities.getD []))
      else jsonwpCapabilities
    let processedJsonwpCapabilities := jsonwp
    match processCapabilities w3c constraints with
    | .error e =>
      { desiredCaps := some []
        processedJsonwpCapabilities := processedJsonwpCapabilities
        processedW3CCapabilities := none
        protocol := .w3c
        error := some e }
    | .ok desiredCaps =>
      { desiredCaps := some desiredCaps
        processedJsonwpCapabilities := processedJsonwpCapabilities
        processedW3CCapabilities :=
          some ⟨insertAppiumPrefixes desiredCaps, [[]]⟩
        protocol := .w3c
        error := none }

/- ---------------------------------------------------------------------
Reference-heap model of the caller-visible part of
`parseCapsForInnerDriver` (utils.js lines 95-150).

The pure translation above cannot express aliasing, so the deep-clone
contract of lines 114-117 is verified on this model: objects live in a
heap, the caller passes references, `_.cloneDeep` allocates fresh
copies, and the two genuine mutations of the source
(`w3cCapabilities.firstMatch = [..]` and
`w3cCapabilities.firstMatch[0][k] = v`) are heap writes.  Everything
from line 152 on only allocates fresh objects, so the heap phase below
covers every write the function can perform.
--------------------------------------------------------------------- -/

/-- A heap object: a plain dictionary (values are immutable data, since
no code path mutates inside a capability value), an array of references,
or a W3C payload object whose fields reference its parts. -/
inductive HObj where
  | dict (entries : Dict) : HObj
  | arr (elems : List Nat) : HObj
  | w3cObj (alwaysMatch : Option Nat) (firstMatch : Option Nat) : HObj

/-- The heap: objects addressed by their index. -/
abbrev Heap := List HObj

/-- Dereference (a dangling reference reads as an empty dictionary). -/
def getObj (h : Heap) (r : Nat) : HObj :=
  h.getD r (.dict [])

/-- In-place update of the object at `r`. -/
def setObj (h : Heap) (r : Nat) (o : HObj) : Heap :=
  h.set r o

/-- Allocate a fresh object, returning its reference. -/
def allocObj (h : Heap) (o : HObj) : Heap × Nat :=
  (h ++ [o], h.length)

/-- The entries of the dictionary at `r` (`[]` if not a dictionary). -/
def dictEntriesAt (h : Heap) (r : Nat) : Dict :=
  match getObj h r with
  | .dict d => d
  | _ => []

/-- `_.isPlainObject` at a reference. -/
def isDictAt (h : Heap) (r : Nat) : Bool :=
  match getObj h r with
  | .dict _ => true
  | _ => false

/-- The references held in `firstMatch` of the payload object at `w`
(`[]` when the field is absent or the shape unexpected). -/
def fmEntryRefs (h : Heap) (w : Nat) : List Nat :=
  match getObj h w with
  | .w3cObj _ (some ar) =>
    (match getObj h ar with
     | .arr es => es
     | _ => [])
  | _ => []

/-- The reference stored in the `firstMatch` field of the payload object
at `w`, when the shape is as expected. -/
def fmArrRef (h : Heap) (w : Nat) : Option Nat :=
  match getObj h w with
  | .w3cObj _ fm => fm
  | _ => none

/-- The well-formedness carried through the injection loop: all heap
locations the loop can write through the cloned payload at `w` lie at or
above the watermark `n` (the caller's heap size), and the references it
reads through stay inside the heap. -/
def HeapPhaseInv (n : Nat) (h : Heap) (w : Nat) : Prop :=
  n ≤ h.length ∧ n ≤ w ∧ w < h.length ∧
  (∀ e ∈ fmEntryRefs h w, n ≤ e) ∧
  (∀ ar, fmArrRef h w = some ar → ar < h.length)

/-- `_.cloneDeep` of a list of first-match dictionaries. -/
def cloneDictList (h : Heap) : List Nat → Heap × List Nat
  | [] => (h, [])
  | r :: rs =>
    let (h1, r') := allocObj h (.dict (dictEntriesAt h r))
    let (h2, rs') := cloneDictList h1 rs
    (h2, r' :: rs')

/-- `_.cloneDeep(w3cCapabilities)` (line 116): fresh copies of the
`alwaysMatch` dictionary, every `firstMatch` entry, the `firstMatch`
array and the payload object itself. -/
def cloneW3c (h : Heap) (r : Nat) : Heap × Nat :=
  match getObj h r with
  | .w3cObj am fm =>
    let ham' : Heap × Option Nat :=
      match am with
      | some ar =>
        let (ha, ar') := allocObj h (.dict (dictEntriesAt h ar))
        (ha, some ar')
      | none => (h, none)
    let hfm' : Heap × Option Nat :=
      match fm with
      | some fr =>
        let elems : List Nat :=
          match getObj ham'.1 fr with
          | .arr es => es
          | _ => []
        let (hb, es') := cloneDictList ham'.1 elems
        let (hc, fr') := allocObj hb (.arr es')
        (hc, some fr')
      | none => (ham'.1, none)
    allocObj hfm'.1 (.w3cObj ham'.2 hfm'.2)
  | o => allocObj h o

/-- One iteration of the default-injection loop (lines 121-144) on the
heap; `w` is the reference to the (cloned) payload object.  The two
`else` branches are the source's two mutations. -/
def injectDefaultH (h : Heap) (w : Nat)
    (defaultCapKey : CapKey) (defaultCapValue : Value) : Heap :=
  match getObj h w with
  | .w3cObj am fm =>
    let fmRefs : List Nat :=
      match fm with
      | some ar =>
        (match getObj h ar with
         | .arr es => es
         | _ => [])
      | none => []
    let inFirstMatch : Bool :=
      fmRefs.any (fun r =>
        isDictAt h r &&
          objHas (removeAppiumPrefixes (dictEntriesAt h r))
            (removeAppiumPrefix defaultCapKey))
    let isCapAlreadySet : Bool :=
      inFirstMatch ||
        (match am with
         | some ar =>
           isDictAt h ar &&
             objHas (removeAppiumPrefixes (dictEntriesAt h ar))
               (removeAppiumPrefix defaultCapKey)
         | none => false)
    if isCapAlreadySet then h
    else
      match fmRefs with
      | [] =>
        let (h1, dref) := allocObj h (.dict [(defaultCapKey, defaultCapValue)])
        let (h2, aref) := allocObj h1 (.arr [dref])
        setObj h2 w (.w3cObj am (some aref))
      | r0 :: _ =>
        setObj h r0
          (.dict (objSet (dictEntriesAt h r0) defaultCapKey defaultCapValue))
  | _ => h

/-- The whole default-injection loop on the heap. -/
def injectDefaultsH (h : Heap) (w : Nat) (defaults : Dict) : Heap :=
  defaults.foldl (fun hh p => injectDefaultH hh w p.1 p.2) h

/-- Lines 95-150 of `parseCapsForInnerDriver` on the heap: input
classification, the early missing-W3C return (which touches nothing),
the three deep clones of lines 114-117, the default injection into the
cloned payload and the legacy merge (which allocates a fresh object for
the rebound local).  Returns the final heap. -/
def parseCapsMutationPhase (h : Heap) (jsonwpRef : Option Nat)
    (w3cRef : Option Nat) (defaultsRef : Nat) : Heap :=
  let hasW3CCaps : Bool :=
    match w3cRef with
    | some r =>
      (match getObj h r with
       | .w3cObj am fm => am.isSome || fm.isSome
       | _ => false)
    | none => false
  if ¬hasW3CCaps then h
  else
    let hj : Heap × Option Nat :=
      match jsonwpRef with
      | some r =>
        let (ha, r') := allocObj h (.dict (dictEntriesAt h r))
        (ha, some r')
      | none => (h, none)
    let wIn : Nat := match w3cRef with | some r => r | none => 0
    let (h2, w) := cloneW3c hj.1 wIn
    let (h3, d) := allocObj h2 (.dict (dictEntriesAt h2 defaultsRef))
    let defaults := dictEntriesAt h3 d
    if ¬defaults.isEmpty then
      let h4 := injectDefaultsH h3 w defaults
      match hj.2 with
      | some jr =>
        let merged :=
          lodashAssign
            (lodashAssign [] (removeAppiumPrefixes defaults))
            (dictEntriesAt h4 jr)
        (allocObj h4 (.dict merged)).1
      | none => h4
    else h3

/- ---------------------------------------------------------------------
Theorems.
--------------------------------------------------------------------- -/

/-- C10: `parseCapsForInnerDriver` sets the `protocol` field of its
result to W3C on every return path: the missing-W3C-capabilities error
return, the capability-match-failure error return, and the success
return alike. -/
theorem parseCapsForInnerDriver_protocol_always_w3c
    (processCapabilities : MatchingEngine) (jsonwpCapabilities : Option Dict)
    (w3cCapabilities : Option W3CCaps) (constraints : Constraints)
    (defaultCapabilities : Dict) :
    (parseCapsForInnerDriver processCapabilities jsonwpCapabilities
      w3cCapabilities constraints defaultCapabilities).protocol =
      Protocol.w3c := by
  unfold parseCapsForInnerDriver
  dsimp only
  repeat' split
  all_goals rfl

/-- C9: whenever `parseCapsForInnerDriver` succeeds (`error` unset), its
`processedW3CCapabilities` is exactly
`{ alwaysMatch := insertAppiumPrefixes desiredCaps, firstMatch := [{}] }`
— one single, empty `firstMatch` entry — where `desiredCaps` is the flat
mapping the external matching engine returned for the (possibly
default-augmented) payload. -/
theorem parseCapsForInnerDriver_success_shape
    (processCapabilities : MatchingEngine) (jsonwpCapabilities : Option Dict)
    (w3cCapabilities : Option W3CCaps) (constraints : Constraints)
    (defaultCapabilities : Dict)
    (h : (parseCapsForInnerDriver processCapabilities jsonwpCapabilities
      w3cCapabilities constraints defaultCapabilities).error = none) :
    ∃ payload matched,
      processCapabilities payload constraints = Except.ok matched ∧
      (parseCapsForInnerDriver processCapabilities jsonwpCapabilities
        w3cCapabilities constraints defaultCapabilities).desiredCaps =
        some matched ∧
      (parseCapsForInnerDriver processCapabilities jsonwpCapabilities
        w3cCapabilities constraints defaultCapabilities).processedW3CCapabilities
        = some ⟨insertAppiumPrefixes matched, [[]]⟩ := by
  revert h
  unfold parseCapsForInnerDriver
  dsimp only
  split
  · intro h
    exact absurd h (by simp)
  · split
    · intro h
      exact absurd h (by simp)
    · next matched heq =>
      intro _
      exact ⟨_, matched, heq, rfl, rfl⟩

/-- C9 witness: a concrete successful negotiation exhibiting the shape. -/
theorem parseCapsForInnerDriver_success_shape_witness :
    ∃ payload matched,
      (fun (_ : W3CCaps) (_ : Constraints) =>
          (Except.ok [(['a'], Value.num 1)] : Except String Dict)) payload [] =
        Except.ok matched ∧
      (parseCapsForInnerDriver
        (fun _ _ => Except.ok [(['a'], Value.num 1)]) none
        (some ⟨some [], none⟩) [] []).desiredCaps = some matched ∧
      (parseCapsForInnerDriver
        (fun _ _ => Except.ok [(['a'], Value.num 1)]) none
        (some ⟨some [], none⟩) [] []).processedW3CCapabilities =
        some ⟨insertAppiumPrefixes matched, [[]]⟩ :=
  parseCapsForInnerDriver_success_shape
    (fun _ _ => Except.ok [(['a'], Value.num 1)]) none
    (some ⟨some [], none⟩) [] [] (by rfl)

/-- C2 counterexample: with a legacy capability dictionary supplied and a
matching engine that rejects the payload, the result has `error` set yet
`processedJsonwpCapabilities` is non-null (it holds the processed legacy
dictionary), contradicting the claim that both processed fields are null
or unset on every error return. -/
theorem negotiation_error_keeps_processed_jsonwp_counterexample :
    ((parseCapsForInnerDriver (fun _ _ => Except.error "no match")
        (some [(['a'], Value.num 1)]) (some ⟨some [], none⟩) [] []).error
      = some "no match") ∧
    ((parseCapsForInnerDriver (fun _ _ => Except.error "no match")
        (some [(['a'], Value.num 1)])
        (some ⟨some [], none⟩) [] []).processedJsonwpCapabilities =
      some [(['a'], Value.num 1)]) ∧
    some [(['a'], Value.num 1)] ≠ (none : Option Dict) := by
  refine ⟨rfl, rfl, ?_⟩
  intro h
  exact Option.noConfusion h

/-- C2 (amended): if the returned `error` is set, then `desiredCaps` is
empty (absent or `{}`) and `processedW3CCapabilities` is null or unset;
`processedJsonwpCapabilities` is null or unset unless a legacy
capability dictionary was supplied, in which case it may retain the
processed legacy dictionary. -/
theorem negotiation_error_invariant
    (processCapabilities : MatchingEngine) (jsonwpCapabilities : Option Dict)
    (w3cCapabilities : Option W3CCaps) (constraints : Constraints)
    (defaultCapabilities : Dict)
    (h : (parseCapsForInnerDriver processCapabilities jsonwpCapabilities
      w3cCapabilities constraints defaultCapabilities).error.isSome = true) :
    ((parseCapsForInnerDriver processCapabilities jsonwpCapabilities
        w3cCapabilities constraints defaultCapabilities).desiredCaps = none ∨
      (parseCapsForInnerDriver processCapabilities jsonwpCapabilities
        w3cCapabilities constraints defaultCapabilities).desiredCaps = some []) ∧
    (parseCapsForInnerDriver processCapabilities jsonwpCapabilities
      w3cCapabilities constraints defaultCapabilities).processedW3CCapabilities
      = none ∧
    ((parseCapsForInnerDriver processCapabilities jsonwpCapabilities
        w3cCapabilities constraints
        defaultCapabilities).processedJsonwpCapabilities.isSome = true →
      jsonwpCapabilities.isSome = true) := by
  revert h
  unfold parseCapsForInnerDriver
  dsimp only
  split
  · intro _
    refine ⟨Or.inl rfl, rfl, ?_⟩
    intro h'
    simp at h'
  · split
    · intro _
      refine ⟨Or.inr rfl, rfl, ?_⟩
      split
      · next hcond =>
        intro _
        exact hcond.2
      · intro h'
        exact h'
    · intro h
      simp at h

/-- C2 (amended) witness: the error invariant at a concrete input with
no legacy dictionary and a rejecting engine. -/
theorem negotiation_error_invariant_witness :
    ((parseCapsForInnerDriver (fun _ _ => Except.error "no match")
        none (some ⟨some [], none⟩) [] []).desiredCaps = none ∨
      (parseCapsForInnerDriver (fun _ _ => Except.error "no match")
        none (some ⟨some [], none⟩) [] []).desiredCaps = some []) ∧
    (parseCapsForInnerDriver (fun _ _ => Except.error "no match")
      none (some ⟨some [], none⟩) [] []).processedW3CCapabilities = none ∧
    ((parseCapsForInnerDriver (fun _ _ => Except.error "no match")
        none (some ⟨some [], none⟩) [] []).processedJsonwpCapabilities.isSome
        = true →
      (none : Option Dict).isSome = true) :=
  negotiation_error_invariant (fun _ _ => Except.error "no match")
    none (some ⟨some [], none⟩) [] [] (by rfl)

lemma objHas_objSet_self (d : Dict) (k : CapKey) (v : Value) :
    objHas (objSet d k v) k = true := by
  unfold objHas objSet
  split
  · next h =>
    rw [List.any_eq_true] at h ⊢
    obtain ⟨p, hp, hk⟩ := h
    simp only [decide_eq_true_eq] at hk
    refine ⟨(k, v), ?_, by simp⟩
    rw [List.mem_map]
    exact ⟨p, hp, by simp [hk]⟩
  · rw [List.any_eq_true]
    exact ⟨(k, v), by simp, by simp⟩

lemma objHas_objSet_mono (d : Dict) (k k' : CapKey) (v : Value)
    (h : objHas d k' = true) : objHas (objSet d k v) k' = true := by
  unfold objHas objSet
  unfold objHas at h
  rw [List.any_eq_true] at h
  obtain ⟨p, hp, hk⟩ := h
  split
  · rw [List.any_eq_true]
    by_cases hpk : p.1 = k
    · refine ⟨(k, v), List.mem_map.mpr ⟨p, hp, by simp [hpk]⟩, ?_⟩
      simp only [decide_eq_true_eq] at hk
      simp [← hk, hpk]
    · exact ⟨p, List.mem_map.mpr ⟨p, hp, by simp [hpk]⟩, hk⟩
  · rw [List.any_eq_true]
    exact ⟨p, List.mem_append.mpr (Or.inl hp), hk⟩

lemma objSet_of_not_has (d : Dict) (k : CapKey) (v : Value)
    (h : objHas d k = false) : objSet d k v = d ++ [(k, v)] := by
  unfold objSet
  unfold objHas at h
  rw [if_neg (by simp [h])]

lemma objSet_append_ne (d : Dict) (k : CapKey) (v : Value)
    (h : objHas d k = false) : objSet d k v ≠ d := by
  rw [objSet_of_not_has d k v h]
  intro hcontra
  have := congrArg List.length hcontra
  simp at this

/-- Every key of `d` survives into `removeAppiumPrefixes d`, stripped. -/
lemma removeAppiumPrefixes_has_aux (d acc : Dict) (k : CapKey)
    (h : objHas acc k = true ∨ ∃ p ∈ d, removeAppiumPrefix p.1 = k) :
    objHas
      (d.foldl (fun fixedCaps p => objSet fixedCaps (removeAppiumPrefix p.1) p.2)
        acc) k = true := by
  induction d generalizing acc with
  | nil =>
    rcases h with h | ⟨p, hp, _⟩
    · simpa using h
    · exact absurd hp (List.not_mem_nil p)
  | cons q rest ih =>
    rcases h with h | ⟨p, hp, hk⟩
    · exact ih _ (Or.inl (objHas_objSet_mono _ _ _ _ h))
    · rcases List.mem_cons.mp hp with rfl | hmem
      · exact ih _ (Or.inl (hk ▸ objHas_objSet_self _ _ _))
      · exact ih _ (Or.inr ⟨p, hmem, hk⟩)

lemma removeAppiumPrefixes_has (d : Dict) (k : CapKey)
    (h : objHas d k = true) :
    objHas (removeAppiumPrefixes d) (removeAppiumPrefix k) = true := by
  unfold removeAppiumPrefixes
  apply removeAppiumPrefixes_has_aux
  right
  unfold objHas at h
  rw [List.any_eq_true] at h
  obtain ⟨p, hp, hk⟩ := h
  simp only [decide_eq_true_eq] at hk
  exact ⟨p, hp, by rw [hk]⟩

/-- The boolean test of the injection loop decides `EquivKeyPresent`. -/
lemma isCapAlreadySet_iff (caps : W3CCaps) (k : CapKey) :
    (((caps.firstMatch.getD []).any
        (fun fm => objHas (removeAppiumPrefixes fm) (removeAppiumPrefix k)) ||
      (match caps.alwaysMatch with
       | some am => objHas (removeAppiumPrefixes am) (removeAppiumPrefix k)
       | none => false)) = true) ↔ EquivKeyPresent caps k := by
  rw [Bool.or_eq_true, List.any_eq_true]
  unfold EquivKeyPresent
  cases caps.alwaysMatch with
  | none => simp
  | some am => simp

lemma objGet_append_self (d : Dict) (k : CapKey) (v : Value)
    (h : objHas d k = false) : objGet (d ++ [(k, v)]) k = some v := by
  unfold objGet
  have hnone : d.find? (fun p => decide (p.1 = k)) = none := by
    rw [List.find?_eq_none]
    intro p hp
    unfold objHas at h
    rw [List.any_eq_false] at h
    simpa using h p hp
  rw [List.find?_append, hnone]
  simp

/-- C1 counterexample: with `firstMatch = [{}, {a: 2}]` and default
`{a: 1}`, the injection loop leaves the payload unchanged — the default
is skipped because `a` occurs in `firstMatch[1]` — whereas the claim
says a default whose equivalent key appears only in a `firstMatch` entry
other than the first is still injected into `firstMatch[0]`. -/
theorem applyDefaults_skips_on_later_firstMatch_counterexample :
    ((applyDefaultsW3C [(['a'], Value.num 1)]
        ⟨none, some [[], [(['a'], Value.num 2)]]⟩).firstMatch =
      some [[], [(['a'], Value.num 2)]]) ∧
    objHas
      (((applyDefaultsW3C [(['a'], Value.num 1)]
          ⟨none, some [[], [(['a'], Value.num 2)]]⟩).firstMatch.getD
        []).headD []) ['a'] = false :=
  ⟨rfl, rfl⟩

/-- C1 (amended): in the default-capability merge of
`parseCapsForInnerDriver`, each default key/value pair — evaluated
against the payload as already updated by the earlier defaults — is
skipped exactly when an equivalent key (compared after stripping the
vendor prefix on both sides) already exists in ANY `firstMatch` entry
(not only `firstMatch[0]`) or in `alwaysMatch`; when no equivalent key
exists anywhere, the default is injected into `firstMatch[0]`, a
singleton `firstMatch` being created first if there were no entries. -/
theorem applyDefaultStep_skip_iff (caps : W3CCaps) (k : CapKey) (v : Value) :
    (applyDefaultStep caps k v = caps ↔ EquivKeyPresent caps k) ∧
    (¬EquivKeyPresent caps k →
      objGet (((applyDefaultStep caps k v).firstMatch.getD []).headD []) k
        = some v) := by
  have hbool := isCapAlreadySet_iff caps k
  unfold applyDefaultStep
  dsimp only
  split
  · next hset =>
    have hp : EquivKeyPresent caps k := hbool.mp hset
    exact ⟨⟨fun _ => hp, fun _ => rfl⟩, fun hnp => absurd hp hnp⟩
  · next hset =>
    have hnp : ¬EquivKeyPresent caps k := fun hp => hset (hbool.mpr hp)
    split
    · next hfm =>
      refine ⟨⟨fun heq => ?_, fun hp => absurd hp hnp⟩, fun _ => ?_⟩
      · have := congrArg W3CCaps.firstMatch heq
        simp only [hfm] at this
        exact Option.noConfusion this
      · simp [objGet]
    · next hfm =>
      refine ⟨⟨fun heq => ?_, fun hp => absurd hp hnp⟩, fun _ => ?_⟩
      · have := congrArg W3CCaps.firstMatch heq
        simp only [hfm] at this
        have := Option.some.inj this
        exact List.noConfusion this
      · simp [objGet]
    · next fm0 fmRest hfm =>
      have hfm0 : objHas fm0 k = false := by
        by_contra hconta
        have h1 : objHas fm0 k = true := by
          revert hconta
          cases objHas fm0 k <;> simp
        refine hnp (Or.inl ⟨fm0, ?_, removeAppiumPrefixes_has fm0 k h1⟩)
        rw [hfm]
        exact List.mem_cons_self fm0 fmRest
      refine ⟨⟨fun heq => ?_, fun hp => absurd hp hnp⟩, fun _ => ?_⟩
      · have := congrArg W3CCaps.firstMatch heq
        simp only [hfm] at this
        have := List.head_eq_of_cons_eq (Option.some.inj this)
        exact absurd this (objSet_append_ne fm0 k v hfm0)
      · simp only [Option.getD_some, List.headD_cons]
        rw [objSet_of_not_has fm0 k v hfm0]
        exact objGet_append_self fm0 k v hfm0

/-- C1 (amended) witness: on a payload with no matching key anywhere,
the default is injected into the (created) first `firstMatch` entry. -/
theorem applyDefaultStep_skip_iff_witness :
    ¬EquivKeyPresent ⟨none, none⟩ ['a'] ∧
    objGet (((applyDefaultStep ⟨none, none⟩ ['a'] (Value.num 1)).firstMatch.getD
      []).headD []) ['a'] = some (Value.num 1) := by
  have hnp : ¬EquivKeyPresent ⟨none, none⟩ ['a'] := by
    simp [EquivKeyPresent]
  exact ⟨hnp, (applyDefaultStep_skip_iff ⟨none, none⟩ ['a'] (Value.num 1)).2 hnp⟩

lemma isPrefixOf_append_self (pre rest : CapKey) :
    pre.isPrefixOf (pre ++ rest) = true := by
  induction pre with
  | nil => simp
  | cons c cs ih => simp [ih]

/-- C5: for a capability name `k` that contains no ':' and is not a
standard capability, `insertAppiumPrefixes {k: v}` is exactly
`{appium:k: v}`, and `removeAppiumPrefixes` undoes it (round-trip for
non-standard, non-prefixed names). -/
theorem insertAppiumPrefixes_round_trip (k : CapKey) (v : Value)
    (h1 : k.contains ':' = false) (h2 : k ∉ STANDARD_CAPS) :
    insertAppiumPrefixes [(k, v)] =
      [(W3C_APPIUM_PREFIX ++ [':'] ++ k, v)] ∧
    removeAppiumPrefixes (insertAppiumPrefixes [(k, v)]) = [(k, v)] := by
  have hcol : ':' ∉ k := by
    intro hm
    have hc : k.contains ':' = true := List.elem_iff.mpr hm
    rw [hc] at h1
    exact Bool.noConfusion h1
  have hins : insertAppiumPrefixes [(k, v)] =
      [(W3C_APPIUM_PREFIX ++ [':'] ++ k, v)] := by
    unfold insertAppiumPrefixes
    simp only [List.foldl]
    rw [if_neg (fun hor => hor.elim
      (fun ha => h2 (List.elem_iff.mp ha))
      (fun hb => hcol (List.elem_iff.mp hb)))]
    rfl
  refine ⟨hins, ?_⟩
  rw [hins]
  unfold removeAppiumPrefixes
  simp only [List.foldl]
  have hstrip : removeAppiumPrefix (W3C_APPIUM_PREFIX ++ [':'] ++ k) = k := by
    unfold removeAppiumPrefix
    dsimp only
    rw [if_pos (isPrefixOf_append_self _ _), List.drop_left]
  rw [hstrip]
  rfl

/-- C5 witness: the round-trip at `k = deviceName`, `v = 1`. -/
theorem insertAppiumPrefixes_round_trip_witness :
    ("deviceName".toList.contains ':' = false) ∧
    ("deviceName".toList ∉ STANDARD_CAPS) ∧
    (insertAppiumPrefixes [("deviceName".toList, Value.num 1)] =
        [(W3C_APPIUM_PREFIX ++ [':'] ++ "deviceName".toList, Value.num 1)] ∧
      removeAppiumPrefixes
        (insertAppiumPrefixes [("deviceName".toList, Value.num 1)]) =
        [("deviceName".toList, Value.num 1)]) :=
  ⟨by decide, by decide,
    insertAppiumPrefixes_round_trip "deviceName".toList (Value.num 1)
      (by decide) (by decide)⟩

lemma objHas_append (a b : Dict) (k : CapKey) :
    objHas (a ++ b) k = (objHas a k || objHas b k) := by
  unfold objHas
  exact List.any_append

lemma parseKnownArgsLoop_ok (knownArgNames : List CapKey) :
    ∀ (rest acc : Dict),
      (∀ p ∈ rest, p.1 ∈ knownArgNames) →
      (∀ p ∈ rest, objHas acc p.1 = false) →
      (rest.map (fun p => p.1)).Nodup →
      parseKnownArgsLoop knownArgNames acc rest = .ok (acc ++ rest)
  | [], acc, _, _, _ => by simp [parseKnownArgsLoop]
  | (k, v) :: rest, acc, hknown, hdisj, hnd => by
    have hk : knownArgNames.contains k = true :=
      List.elem_iff.mpr (hknown (k, v) (List.mem_cons_self _ _))
    have hacc : objHas acc k = false := hdisj (k, v) (List.mem_cons_self _ _)
    unfold parseKnownArgsLoop
    rw [if_pos hk, objSet_of_not_has acc k v hacc]
    have hnd' := hnd
    simp only [List.map_cons, List.nodup_cons] at hnd'
    rw [parseKnownArgsLoop_ok knownArgNames rest (acc ++ [(k, v)])
      (fun p hp => hknown p (List.mem_cons_of_mem _ hp))
      (fun p hp => by
        rw [objHas_append, Bool.or_eq_false_iff]
        refine ⟨hdisj p (List.mem_cons_of_mem _ hp), ?_⟩
        have hne : p.1 ≠ k := by
          intro hcontra
          exact hnd'.1 (hcontra ▸ List.mem_map_of_mem (fun q => q.1) hp)
        simp [objHas, Ne.symm hne])
      hnd'.2]
    rw [List.append_assoc]
    rfl

lemma parseKnownArgsLoop_err (knownArgNames : List CapKey) :
    ∀ (rest acc : Dict),
      (∃ p ∈ rest, p.1 ∉ knownArgNames) →
      ∃ k, parseKnownArgsLoop knownArgNames acc rest =
          .error (.unknownArgument k) ∧ k ∉ knownArgNames
  | [], _, h => absurd h (by simp)
  | (k, v) :: rest, acc, h => by
    by_cases hk : knownArgNames.contains k = true
    · obtain ⟨p, hp, hpn⟩ := h
      rcases List.mem_cons.mp hp with rfl | hmem
      · exact absurd (List.elem_iff.mp hk) hpn
      · unfold parseKnownArgsLoop
        rw [if_pos hk]
        exact parseKnownArgsLoop_err knownArgNames rest _ ⟨p, hmem, hpn⟩
    · refine ⟨k, ?_, ?_⟩
      · unfold parseKnownArgsLoop
        rw [if_neg hk]
      · intro hcontra
        exact hk (List.elem_iff.mpr hcontra)

/-- C6: `parseKnownArgs` is fail-closed: if any supplied key is absent
from the constraints' key set it fails with an unknown-argument error
(never silently dropping), and if every key is known it returns the full
supplied mapping unchanged. -/
theorem parseKnownArgs_fail_closed (suppliedArgs : Dict)
    (argsConstraints : Constraints) :
    ((∃ p ∈ suppliedArgs, p.1 ∉ argsConstraints.map (fun p => p.1)) →
      ∃ k, parseKnownArgs suppliedArgs argsConstraints =
          .error (.unknownArgument k) ∧
        k ∉ argsConstraints.map (fun p => p.1)) ∧
    ((∀ p ∈ suppliedArgs, p.1 ∈ argsConstraints.map (fun p => p.1)) →
      (suppliedArgs.map (fun p => p.1)).Nodup →
      parseKnownArgs suppliedArgs argsConstraints = .ok suppliedArgs) := by
  constructor
  · intro h
    exact parseKnownArgsLoop_err _ suppliedArgs [] h
  · intro hknown hnd
    unfold parseKnownArgs
    rw [parseKnownArgsLoop_ok _ suppliedArgs [] hknown (by simp [objHas]) hnd]
    rfl

/-- C6 witness: `parseKnownArgs({bar: 1}, {bar: {}})` returns
`{bar: 1}`. -/
theorem parseKnownArgs_fail_closed_witness :
    parseKnownArgs [("bar".toList, Value.num 1)]
      [("bar".toList, Constraint.mk)] =
      .ok [("bar".toList, Value.num 1)] :=
  (parseKnownArgs_fail_closed [("bar".toList, Value.num 1)]
      [("bar".toList, Constraint.mk)]).2
    (by decide) (by decide)

/-- C3 counterexample: when the parsed mapping has NO entry for the
extension (here the blob parses to an empty mapping), the source throws
the plain-object error instead of returning an empty mapping — the
`undefined` entry fails the `_.isPlainObject` check. -/
theorem parseExtensionArgs_missing_entry_counterexample :
    objGet ((fun (_ : String) => ([] : List (CapKey × Value))) "args")
      "ext".toList = none ∧
    parseExtensionArgs (fun _ => []) (some "args") "ext".toList =
      .error .invalidArgumentShape :=
  ⟨rfl, rfl⟩

/-- C3 (amended): `parseExtensionArgs` returns an empty mapping when the
blob is absent or not textual; when the blob parses to a mapping, it
fails with `InvalidArgumentShape` both when the entry for the extension
is missing and when the entry is present but not a plain dictionary, and
returns the entry itself when it is a plain dictionary. -/
theorem parseExtensionArgs_spec (parse : String → List (CapKey × Value))
    (s : String) (extensionName : CapKey) :
    (parseExtensionArgs parse none extensionName = .ok []) ∧
    (objGet (parse s) extensionName = none →
      parseExtensionArgs parse (some s) extensionName =
        .error .invalidArgumentShape) ∧
    (∀ v, objGet (parse s) extensionName = some v →
      (∀ d, v ≠ Value.obj d) →
      parseExtensionArgs parse (some s) extensionName =
        .error .invalidArgumentShape) ∧
    (∀ d, objGet (parse s) extensionName = some (Value.obj d) →
      parseExtensionArgs parse (some s) extensionName = .ok d) := by
  refine ⟨rfl, ?_, ?_, ?_⟩
  · intro h
    unfold parseExtensionArgs
    dsimp only
    rw [h]
  · intro v hm hne
    unfold parseExtensionArgs
    dsimp only
    rw [hm]
    cases v with
    | obj d => exact absurd rfl (hne d)
    | null => rfl
    | bool b => rfl
    | num n => rfl
    | str s => rfl
    | arr l => rfl
  · intro d hm
    unfold parseExtensionArgs
    dsimp only
    rw [hm]

/-- C3 (amended) witness: a plain-dictionary entry is returned as-is. -/
theorem parseExtensionArgs_spec_witness :
    parseExtensionArgs
      (fun _ => [("ext".toList, Value.obj [(['x'], Value.num 5)])])
      (some "blob") "ext".toList = .ok [(['x'], Value.num 5)] :=
  (parseExtensionArgs_spec
      (fun _ => [("ext".toList, Value.obj [(['x'], Value.num 5)])])
      "blob" "ext".toList).2.2.2 [(['x'], Value.num 5)] (by rfl)

/-- C8 counterexample: `parseDriverPluginArgs` is not free of side
effects on `baseArgs`: with non-empty supplied args and constraints and
a validator that accepts them (the external validator may do so per its
contract), `_.assign(args, parsedArgs)` mutates the caller's `baseArgs`
in place — its post-call value (second component) is the merged
dictionary, not the original empty one. -/
theorem parseDriverPluginArgs_mutates_base_counterexample :
    parseDriverPluginArgs (fun d _ => Except.ok d) []
      [("bar".toList, Value.num 1)] [("bar".toList, Constraint.mk)] =
      .ok ([("bar".toList, Value.num 1)], [("bar".toList, Value.num 1)]) ∧
    ([("bar".toList, Value.num 1)] : Dict) ≠ ([] : Dict) := by
  refine ⟨rfl, ?_⟩
  intro h
  exact List.noConfusion h

lemma lodashAssign_has_mono :
    ∀ (src target : Dict) (k : CapKey), objHas target k = true →
      objHas (lodashAssign target src) k = true
  | [], _, _, h => h
  | q :: rest, target, k, h =>
    lodashAssign_has_mono rest (objSet target q.1 q.2) k
      (objHas_objSet_mono target q.1 k q.2 h)

/-- C8 (amended): all operations of the core are side-effect-free on
their arguments except `pullSettings` AND `parseDriverPluginArgs`: the
latter, on the non-short-circuit success path, mutates the caller's
`baseArgs` in place into the merged result — post-call `baseArgs` equals
the returned dictionary, every pre-existing key still present — while on
the short-circuit path (empty supplied args or constraints) `baseArgs`
is returned untouched. -/
theorem parseDriverPluginArgs_mutation
    (validate : Dict → Constraints → Except ArgError Dict)
    (args driverPluginArgs : Dict) (argsConstraints : Constraints)
    (ret after : Dict)
    (h : parseDriverPluginArgs validate args driverPluginArgs
      argsConstraints = .ok (ret, after)) :
    after = ret ∧
    ((driverPluginArgs.isEmpty = true ∨ argsConstraints.isEmpty = true) →
      after = args) ∧
    (∀ k, objHas args k = true → objHas after k = true) := by
  revert h
  unfold parseDriverPluginArgs
  split
  · intro h
    obtain ⟨rfl, rfl⟩ : ret = args ∧ after = args := by
      have := Except.ok.inj h
      exact ⟨(Prod.mk.inj this).1.symm, (Prod.mk.inj this).2.symm⟩
    exact ⟨rfl, fun _ => rfl, fun _ hk => hk⟩
  · next hcond =>
    split
    · intro h
      exact Except.noConfusion h
    · split
      · intro h
        exact Except.noConfusion h
      · next validated _ =>
        intro h
        obtain ⟨rfl, rfl⟩ :
            ret = lodashAssign args validated ∧
            after = lodashAssign args validated := by
          have := Except.ok.inj h
          exact ⟨(Prod.mk.inj this).1.symm, (Prod.mk.inj this).2.symm⟩
        refine ⟨rfl, fun hemp => absurd hemp hcond, ?_⟩
        intro k hk
        exact lodashAssign_has_mono validated args k hk

/-- C8 (amended) witness: the mutation contract at a concrete input —
`baseArgs = {x: 2}` becomes `{x: 2, y: 3}`, equal to the return value,
with the pre-existing key `x` preserved. -/
theorem parseDriverPluginArgs_mutation_witness :
    ([(['x'], Value.num 2), (['y'], Value.num 3)] : Dict) =
      [(['x'], Value.num 2), (['y'], Value.num 3)] ∧
    ((([(((['y'] : CapKey)), Value.num 3)] : Dict).isEmpty = true ∨
        ([(((['y'] : CapKey)), Constraint.mk)] : Constraints).isEmpty = true) →
      ([(['x'], Value.num 2), (['y'], Value.num 3)] : Dict) =
        [(['x'], Value.num 2)]) ∧
    (∀ k, objHas [(['x'], Value.num 2)] k = true →
      objHas [(['x'], Value.num 2), (['y'], Value.num 3)] k = true) :=
  parseDriverPluginArgs_mutation (fun d _ => Except.ok d)
    [(['x'], Value.num 2)] [(['y'], Value.num 3)]
    [(['y'], Constraint.mk)]
    [(['x'], Value.num 2), (['y'], Value.num 3)]
    [(['x'], Value.num 2), (['y'], Value.num 3)] (by rfl)

lemma isPrefixOf_to_append :
    ∀ (l₁ l₂ : CapKey), l₁.isPrefixOf l₂ = true → ∃ t, l₂ = l₁ ++ t
  | [], l₂, _ => ⟨l₂, rfl⟩
  | _ :: _, [], h => absurd h (by simp)
  | a :: as, b :: bs, h => by
    rw [List.isPrefixOf_cons₂, Bool.and_eq_true] at h
    have hab : a = b := by simpa using h.1
    obtain ⟨t, ht⟩ := isPrefixOf_to_append as bs h.2
    exact ⟨t, by rw [hab, ht]; rfl⟩

lemma settingsExec_cons_eq (prev : Option Char) (c : Char) (cs : List Char) :
    settingsExec prev (c :: cs) =
      if prevBoundary prev = true ∧ settingsLit.isPrefixOf (c :: cs) = true then
        if 2 ≤ ((c :: cs).drop settingsLit.length).length ∧
            ((c :: cs).drop settingsLit.length).getLast? = some ']' ∧
            ((c :: cs).drop settingsLit.length).dropLast.all
              (fun ch => !isSpaceJS ch) = true then
          some ((c :: cs).drop settingsLit.length).dropLast
        else settingsExec (some c) cs
      else settingsExec (some c) cs := rfl

/-- A successful scan one position to the right extends to the current
position: the scanned prefix grows by the peeled character. -/
lemma settingsExec_sound_step (c : Char) (cs name : List Char)
    (ih : ∃ pre, cs = pre ++ settingsLit ++ name ++ [']'] ∧ name ≠ [] ∧
      (∀ ch ∈ name, isSpaceJS ch = false) ∧
      ((pre = [] ∧ prevBoundary (some c) = true) ∨
        (∃ pre' c', pre = pre' ++ [c'] ∧ isWordChar c' = false))) :
    ∃ pre, c :: cs = pre ++ settingsLit ++ name ++ [']'] ∧ name ≠ [] ∧
      (∀ ch ∈ name, isSpaceJS ch = false) ∧
      (∃ pre' c', pre = pre' ++ [c'] ∧ isWordChar c' = false) := by
  obtain ⟨pre, heq, hne, hsp, hb⟩ := ih
  refine ⟨c :: pre, by rw [heq]; rfl, hne, hsp, ?_⟩
  rcases hb with ⟨rfl, hbc⟩ | ⟨pre', c', rfl, hw⟩
  · refine ⟨[], c, rfl, ?_⟩
    simpa [prevBoundary] using hbc
  · exact ⟨c :: pre', c', rfl, hw⟩

lemma settingsExec_sound :
    ∀ (prev : Option Char) (s name : List Char),
      settingsExec prev s = some name →
      ∃ pre, s = pre ++ settingsLit ++ name ++ [']'] ∧ name ≠ [] ∧
        (∀ ch ∈ name, isSpaceJS ch = false) ∧
        ((pre = [] ∧ prevBoundary prev = true) ∨
          (∃ pre' c', pre = pre' ++ [c'] ∧ isWordChar c' = false))
  | prev, [], name => by
    intro h
    simp [settingsExec] at h
  | prev, c :: cs, name => by
    intro h
    rw [settingsExec_cons_eq] at h
    split at h
    · next houter =>
      split at h
      · next hinner =>
        obtain ⟨t, ht⟩ := isPrefixOf_to_append _ _ houter.2
        have hrest : (c :: cs).drop settingsLit.length = t := by
          rw [ht, List.drop_left]
        rw [hrest] at h hinner
        obtain ⟨hlen, hlast, hall⟩ := hinner
        have htne : t ≠ [] := by
          intro h0
          rw [h0] at hlen
          simp at hlen
        have hlastval : t.getLast htne = ']' := by
          have := List.getLast?_eq_getLast t htne
          rw [this] at hlast
          exact Option.some.inj hlast
        have ht2 : t = t.dropLast ++ [']'] := by
          conv_lhs => rw [← List.dropLast_append_getLast htne]
          rw [hlastval]
        have hname : name = t.dropLast := (Option.some.inj h).symm
        refine ⟨[], ?_, ?_, ?_, Or.inl ⟨rfl, houter.1⟩⟩
        · rw [List.nil_append, ht, hname, List.append_assoc, ← ht2]
        · rw [hname]
          intro h0
          rw [h0] at ht2
          rw [ht2] at hlen
          simp at hlen
        · intro ch hch
          rw [hname] at hch
          rw [List.all_eq_true] at hall
          have := hall ch hch
          simpa using this
      · have ih := settingsExec_sound (some c) cs name h
        obtain ⟨pre, heq, hne, hsp, hb⟩ := settingsExec_sound_step c cs name ih
        exact ⟨pre, heq, hne, hsp, Or.inr hb⟩
    · have ih := settingsExec_sound (some c) cs name h
      obtain ⟨pre, heq, hne, hsp, hb⟩ := settingsExec_sound_step c cs name ih
      exact ⟨pre, heq, hne, hsp, Or.inr hb⟩

/-- At a word boundary with the payload shape in place, the scan
succeeds immediately and captures `name`. -/
lemma settingsExec_at_match (prev : Option Char) (name : List Char)
    (hb : prevBoundary prev = true) (hne : name ≠ [])
    (hsp : ∀ ch ∈ name, isSpaceJS ch = false) :
    settingsExec prev (settingsLit ++ (name ++ [']'])) = some name := by
  have hcons : settingsLit ++ (name ++ [']']) =
      's' :: ("ettings[".toList ++ (name ++ [']'])) := rfl
  rw [hcons, settingsExec_cons_eq, ← hcons]
  rw [if_pos ⟨hb, isPrefixOf_append_self _ _⟩, List.drop_left]
  rw [if_pos, List.dropLast_concat]
  refine ⟨?_, List.getLast?_concat _, ?_⟩
  · have : 0 < name.length := List.length_pos.mpr hne
    simp only [List.length_append, List.length_cons, List.length_nil]
    omega
  · rw [List.dropLast_concat, List.all_eq_true]
    intro ch hch
    simp [hsp ch hch]

lemma settingsExec_complete :
    ∀ (pre : List Char) (prev : Option Char) (name : List Char),
      name ≠ [] → (∀ ch ∈ name, isSpaceJS ch = false) →
      ((pre = [] ∧ prevBoundary prev = true) ∨
        (∃ pre' c', pre = pre' ++ [c'] ∧ isWordChar c' = false)) →
      (settingsExec prev (pre ++ settingsLit ++ name ++ [']'])).isSome = true
  | [], prev, name => by
    intro hne hsp hbnd
    have hb : prevBoundary prev = true := by
      rcases hbnd with ⟨_, hb⟩ | ⟨pre', c', hpp, _⟩
      · exact hb
      · exact absurd hpp.symm (List.append_ne_nil_of_right_ne_nil pre' (by simp))
    have hshape : ([] : List Char) ++ settingsLit ++ name ++ [']'] =
        settingsLit ++ (name ++ [']']) := by
      simp
    rw [hshape, settingsExec_at_match prev name hb hne hsp]
    rfl
  | p0 :: pre₀, prev, name => by
    intro hne hsp hbnd
    have hnext : (pre₀ = [] ∧ prevBoundary (some p0) = true) ∨
        (∃ pre' c', pre₀ = pre' ++ [c'] ∧ isWordChar c' = false) := by
      rcases hbnd with ⟨heq, _⟩ | ⟨pre', c', hpp, hw⟩
      · exact absurd heq (by simp)
      · cases pre' with
        | nil =>
          obtain ⟨hp0, hpre⟩ : p0 = c' ∧ pre₀ = [] := by
            have := hpp
            simp only [List.nil_append] at this
            exact ⟨List.head_eq_of_cons_eq this, List.tail_eq_of_cons_eq this⟩
          exact Or.inl ⟨hpre, by simp [prevBoundary, hp0, hw]⟩
        | cons q pre'' =>
          obtain ⟨hp0, hpre⟩ : p0 = q ∧ pre₀ = pre'' ++ [c'] := by
            have := hpp
            simp only [List.cons_append] at this
            exact ⟨List.head_eq_of_cons_eq this, List.tail_eq_of_cons_eq this⟩
          exact Or.inr ⟨pre'', c', hpre, hw⟩
    have hcons : (p0 :: pre₀) ++ settingsLit ++ name ++ [']'] =
        p0 :: (pre₀ ++ settingsLit ++ name ++ [']']) := by
      simp
    rw [hcons, settingsExec_cons_eq]
    split
    · split
      · simp
      · exact settingsExec_complete pre₀ (some p0) name hne hsp hnext
    · exact settingsExec_complete pre₀ (some p0) name hne hsp hnext

lemma settingsExec_spec_of_some (key name : CapKey)
    (h : settingsExec none key = some name) : SettingsKeySpec key name := by
  obtain ⟨pre, heq, hne, hsp, hb⟩ := settingsExec_sound none key name h
  refine ⟨pre, heq, hne, hsp, ?_⟩
  rcases hb with ⟨hpre, _⟩ | hend
  · exact Or.inl hpre
  · exact Or.inr hend

lemma settingsExec_some_of_spec (key name : CapKey)
    (h : SettingsKeySpec key name) :
    (settingsExec none key).isSome = true := by
  obtain ⟨pre, heq, hne, hsp, hb⟩ := h
  rw [heq]
  refine settingsExec_complete pre none name hne hsp ?_
  rcases hb with hpre | hend
  · exact Or.inl ⟨hpre, rfl⟩
  · exact Or.inr hend

lemma mem_objDelete_of_ne (d : Dict) (k : CapKey) (q : CapKey × Value)
    (hq : q ∈ d) (hne : q.1 ≠ k) : q ∈ objDelete d k := by
  unfold objDelete
  rw [List.mem_filter]
  exact ⟨hq, by simp [hne]⟩

lemma not_mem_objDelete (d : Dict) (k : CapKey) (v : Value) :
    (k, v) ∉ objDelete d k := by
  unfold objDelete
  rw [List.mem_filter]
  simp

lemma mem_of_mem_objDelete (d : Dict) (k : CapKey) (q : CapKey × Value)
    (hq : q ∈ objDelete d k) : q ∈ d :=
  List.mem_of_mem_filter hq

lemma objSet_mem_self (d : Dict) (k : CapKey) (v : Value) :
    (k, v) ∈ objSet d k v := by
  unfold objSet
  split
  · next h =>
    rw [List.any_eq_true] at h
    obtain ⟨p, hp, hpk⟩ := h
    simp only [decide_eq_true_eq] at hpk
    exact List.mem_map.mpr ⟨p, hp, by simp [hpk]⟩
  · exact List.mem_append.mpr (Or.inr (List.mem_singleton.mpr rfl))

lemma objSet_mem_of_ne (d : Dict) (k : CapKey) (v : Value)
    (q : CapKey × Value) (hq : q ∈ d) (hne : q.1 ≠ k) : q ∈ objSet d k v := by
  unfold objSet
  split
  · exact List.mem_map.mpr ⟨q, hq, by simp [hne]⟩
  · exact List.mem_append.mpr (Or.inl hq)

lemma pullFold_snd :
    ∀ (l : Dict) (res rem : Dict),
      (l.foldl (fun acc p =>
        match settingsExec none p.1 with
        | some name => (objSet acc.1 name p.2, objDelete acc.2 p.1)
        | none => acc) (res, rem)).2 =
      l.foldl (fun r p =>
        match settingsExec none p.1 with
        | some _ => objDelete r p.1
        | none => r) rem
  | [], _, _ => rfl
  | p :: l, res, rem => by
    cases hm : settingsExec none p.1 with
    | some name =>
      simp only [List.foldl_cons, hm]
      exact pullFold_snd l _ _
    | none =>
      simp only [List.foldl_cons, hm]
      exact pullFold_snd l _ _

lemma pullFold_fst :
    ∀ (l : Dict) (res rem : Dict),
      (l.foldl (fun acc p =>
        match settingsExec none p.1 with
        | some name => (objSet acc.1 name p.2, objDelete acc.2 p.1)
        | none => acc) (res, rem)).1 =
      l.foldl (fun r p =>
        match settingsExec none p.1 with
        | some name => objSet r name p.2
        | none => r) res
  | [], _, _ => rfl
  | p :: l, res, rem => by
    cases hm : settingsExec none p.1 with
    | some name =>
      simp only [List.foldl_cons, hm]
      exact pullFold_fst l _ _
    | none =>
      simp only [List.foldl_cons, hm]
      exact pullFold_fst l _ _

lemma delFold_mem :
    ∀ (l : Dict) (rem : Dict) (q : CapKey × Value), q ∈ rem →
      (∀ p ∈ l, (settingsExec none p.1).isSome = true → p.1 ≠ q.1) →
      q ∈ l.foldl (fun r p =>
        match settingsExec none p.1 with
        | some _ => objDelete r p.1
        | none => r) rem
  | [], _, _, hq, _ => hq
  | p :: l, rem, q, hq, hl => by
    cases hm : settingsExec none p.1 with
    | some name =>
      simp only [List.foldl_cons, hm]
      refine delFold_mem l _ q ?_ (fun p' hp' => hl p' (List.mem_cons_of_mem _ hp'))
      exact mem_objDelete_of_ne rem p.1 q hq
        (fun hqp => hl p (List.mem_cons_self _ _) (by rw [hm]; rfl) hqp.symm)
    | none =>
      simp only [List.foldl_cons, hm]
      exact delFold_mem l _ q hq (fun p' hp' => hl p' (List.mem_cons_of_mem _ hp'))

lemma delFold_subset :
    ∀ (l : Dict) (rem : Dict) (q : CapKey × Value),
      q ∈ l.foldl (fun r p =>
        match settingsExec none p.1 with
        | some _ => objDelete r p.1
        | none => r) rem → q ∈ rem
  | [], _, _, hq => hq
  | p :: l, rem, q, hq => by
    cases hm : settingsExec none p.1 with
    | some name =>
      simp only [List.foldl_cons, hm] at hq
      exact mem_of_mem_objDelete rem p.1 q (delFold_subset l _ q hq)
    | none =>
      simp only [List.foldl_cons, hm] at hq
      exact delFold_subset l _ q hq

lemma delFold_deleted :
    ∀ (l : Dict) (rem : Dict) (k : CapKey) (v : Value),
      (∃ p ∈ l, p.1 = k ∧ (settingsExec none p.1).isSome = true) →
      (k, v) ∉ l.foldl (fun r p =>
        match settingsExec none p.1 with
        | some _ => objDelete r p.1
        | none => r) rem
  | [], _, _, _, hex => absurd hex (by simp)
  | p :: l, rem, k, v, hex => by
    obtain ⟨p', hp', hpk, hsome⟩ := hex
    rcases List.mem_cons.mp hp' with rfl | hmem
    · obtain ⟨name, hm⟩ := Option.isSome_iff_exists.mp hsome
      simp only [List.foldl_cons, hm]
      intro hcontra
      have := delFold_subset l _ (k, v) hcontra
      rw [hpk] at this
      exact not_mem_objDelete rem k v this
    · cases hm : settingsExec none p.1 with
      | some name =>
        simp only [List.foldl_cons, hm]
        exact delFold_deleted l _ k v ⟨p', hmem, hpk, hsome⟩
      | none =>
        simp only [List.foldl_cons, hm]
        exact delFold_deleted l _ k v ⟨p', hmem, hpk, hsome⟩

lemma insFold_mem_preserved :
    ∀ (l : Dict) (res : Dict) (q : CapKey × Value), q ∈ res →
      (∀ p ∈ l, ∀ n, settingsExec none p.1 = some n → n ≠ q.1) →
      q ∈ l.foldl (fun r p =>
        match settingsExec none p.1 with
        | some name => objSet r name p.2
        | none => r) res
  | [], _, _, hq, _ => hq
  | p :: l, res, q, hq, hl => by
    cases hm : settingsExec none p.1 with
    | some name =>
      simp only [List.foldl_cons, hm]
      refine insFold_mem_preserved l _ q ?_
        (fun p' hp' => hl p' (List.mem_cons_of_mem _ hp'))
      exact objSet_mem_of_ne res name p.2 q hq
        (fun hqn => hl p (List.mem_cons_self _ _) name hm hqn.symm)
    | none =>
      simp only [List.foldl_cons, hm]
      exact insFold_mem_preserved l _ q hq
        (fun p' hp' => hl p' (List.mem_cons_of_mem _ hp'))

lemma insFold_inserted :
    ∀ (l : Dict) (res : Dict) (k : CapKey) (v : Value) (n : CapKey),
      (k, v) ∈ l → settingsExec none k = some n →
      (l.filterMap (fun p => settingsExec none p.1)).Nodup →
      (n, v) ∈ l.foldl (fun r p =>
        match settingsExec none p.1 with
        | some name => objSet r name p.2
        | none => r) res
  | [], _, _, _, _, hmem, _, _ => absurd hmem (List.not_mem_nil _)
  | p :: l, res, k, v, n, hmem, hexec, hnames => by
    rcases List.mem_cons.mp hmem with rfl | hmem'
    · simp only [List.foldl_cons, hexec]
      have hnames' : n ∉ l.filterMap (fun p => settingsExec none p.1) := by
        rw [List.filterMap_cons] at hnames
        simp only [hexec] at hnames
        exact (List.nodup_cons.mp hnames).1
      refine insFold_mem_preserved l _ (n, v) (objSet_mem_self res n v) ?_
      intro p' hp' n' hn' hcontra
      have hn : n' = n := hcontra
      exact hnames' (hn ▸ List.mem_filterMap.mpr ⟨p', hp', hn'⟩)
    · have hnames' : (l.filterMap (fun p => settingsExec none p.1)).Nodup := by
        rw [List.filterMap_cons] at hnames
        cases hm : settingsExec none p.1 with
        | some m => rw [hm] at hnames; exact (List.nodup_cons.mp hnames).2
        | none => rw [hm] at hnames; exact hnames
      cases hm : settingsExec none p.1 with
      | some name =>
        simp only [List.foldl_cons, hm]
        exact insFold_inserted l _ k v n hmem' hexec hnames'
      | none =>
        simp only [List.foldl_cons, hm]
        exact insFold_inserted l _ k v n hmem' hexec hnames'

/-- C7 counterexample: the key `xsettings[a]` ends with `settings[a]`
(name `a`, non-empty and non-whitespace), yet `pullSettings` extracts
nothing and deletes nothing, because the character before `settings` is
the word character `x` and the regex requires a word boundary (`\b`)
there — contradicting the claim that every key ending with
`settings[<name>]` is moved. -/
theorem pullSettings_word_boundary_counterexample :
    ("xsettings[a]".toList = "x".toList ++ settingsLit ++ ['a'] ++ [']']) ∧
    pullSettings [("xsettings[a]".toList, Value.num 30)] =
      ([], [("xsettings[a]".toList, Value.num 30)]) :=
  ⟨rfl, rfl⟩

/-- C7 (amended): `pullSettings` moves exactly the member keys matched
by the regex — keys ending with `settings[<name>]` (`name` one or more
non-whitespace characters) whose `settings` occurrence additionally sits
at a word boundary (start of the key, or preceded by a non-word
character): a key admitting no such decomposition stays in the
dictionary with its value untouched; a key admitting one is deleted from
the dictionary; and the captured value is preserved exactly in the
result under the captured name (when extracted names do not collide). -/
theorem pullSettings_spec (caps : Dict) (k : CapKey) (v : Value)
    (hmem : (k, v) ∈ caps)
    (hnd : (caps.map (fun p => p.1)).Nodup) :
    ((∀ n, ¬SettingsKeySpec k n) → (k, v) ∈ (pullSettings caps).2) ∧
    ((∃ n, SettingsKeySpec k n) → ∀ v', (k, v') ∉ (pullSettings caps).2) ∧
    (∀ n, settingsExec none k = some n → SettingsKeySpec k n ∧
      ((caps.filterMap (fun p => settingsExec none p.1)).Nodup →
        (n, v) ∈ (pullSettings caps).1)) := by
  have hne : caps.isEmpty = false := by
    cases caps with
    | nil => exact absurd hmem (List.not_mem_nil _)
    | cons q l => rfl
  have hps : pullSettings caps =
      caps.foldl (fun acc p =>
        match settingsExec none p.1 with
        | some name => (objSet acc.1 name p.2, objDelete acc.2 p.1)
        | none => acc) ([], caps) := by
    unfold pullSettings
    rw [if_neg (by simp [hne])]
  refine ⟨?_, ?_, ?_⟩
  · intro hnospec
    have hm : settingsExec none k = none := by
      cases hm : settingsExec none k with
      | some n => exact absurd (settingsExec_spec_of_some k n hm) (hnospec n)
      | none => rfl
    rw [hps, pullFold_snd]
    refine delFold_mem caps caps (k, v) hmem ?_
    intro p hp hsome hpk
    have hpq : p = (k, v) :=
      List.inj_on_of_nodup_map hnd hp hmem hpk
    rw [hpq] at hsome
    rw [show ((k, v) : CapKey × Value).1 = k from rfl, hm] at hsome
    exact Bool.noConfusion hsome
  · intro hspec v'
    obtain ⟨n, hn⟩ := hspec
    have hsome := settingsExec_some_of_spec k n hn
    rw [hps, pullFold_snd]
    exact delFold_deleted caps caps k v' ⟨(k, v), hmem, rfl, hsome⟩
  · intro n hm
    refine ⟨settingsExec_spec_of_some k n hm, ?_⟩
    intro hnames
    rw [hps, pullFold_fst]
    exact insFold_inserted caps [] k v n hmem hm hnames

/-- C7 (amended) witness: the spec's own example —
`pullSettings {a: 1, settings[timeout]: 30}` extracts `timeout ↦ 30`,
whose key matches the pattern at a word boundary. -/
theorem pullSettings_spec_witness :
    SettingsKeySpec "settings[timeout]".toList "timeout".toList ∧
    ("timeout".toList, Value.num 30) ∈
      (pullSettings [(['a'], Value.num 1),
        ("settings[timeout]".toList, Value.num 30)]).1 := by
  have h := (pullSettings_spec
      [(['a'], Value.num 1), ("settings[timeout]".toList, Value.num 30)]
      "settings[timeout]".toList (Value.num 30)
      (List.mem_cons_of_mem _ (List.mem_cons_self _ _))
      (by decide)).2.2 "timeout".toList (by rfl)
  exact ⟨h.1, h.2 (by decide)⟩

lemma getObj_append_lt (h ext : Heap) (i : Nat) (hi : i < h.length) :
    getObj (h ++ ext) i = getObj h i := by
  unfold getObj
  rw [List.getD_eq_getElem?_getD, List.getD_eq_getElem?_getD,
    List.getElem?_append_left hi]

lemma getObj_set_ne (h : Heap) (r : Nat) (o : HObj) (i : Nat) (hi : i ≠ r) :
    getObj (setObj h r o) i = getObj h i := by
  unfold getObj setObj
  rw [List.getD_eq_getElem?_getD, List.getD_eq_getElem?_getD,
    List.getElem?_set_ne (Ne.symm hi)]

lemma getObj_set_self (h : Heap) (r : Nat) (o : HObj) (hr : r < h.length) :
    getObj (setObj h r o) r = o := by
  unfold getObj setObj
  rw [List.getD_eq_getElem?_getD, List.getElem?_set_self hr]
  rfl

lemma getObj_concat_self (h : Heap) (o : HObj) :
    getObj (h ++ [o]) h.length = o := by
  unfold getObj
  rw [List.getD_eq_getElem?_getD, List.getElem?_concat_length]
  rfl

lemma fmArrRef_append (h ext : Heap) (w : Nat) (hw : w < h.length) :
    fmArrRef (h ++ ext) w = fmArrRef h w := by
  unfold fmArrRef
  rw [getObj_append_lt h ext w hw]

lemma fmEntryRefs_append (h ext : Heap) (w : Nat) (hw : w < h.length)
    (har : ∀ ar, fmArrRef h w = some ar → ar < h.length) :
    fmEntryRefs (h ++ ext) w = fmEntryRefs h w := by
  unfold fmEntryRefs
  rw [getObj_append_lt h ext w hw]
  cases hobj : getObj h w with
  | w3cObj am fm =>
    cases fm with
    | none => rfl
    | some ar =>
      have hlt : ar < h.length := har ar (by unfold fmArrRef; rw [hobj])
      dsimp only
      rw [getObj_append_lt h ext ar hlt]
  | dict d => rfl
  | arr es => rfl

lemma heapPhaseInv_append (n : Nat) (h ext : Heap) (w : Nat)
    (hinv : HeapPhaseInv n h w) : HeapPhaseInv n (h ++ ext) w := by
  obtain ⟨hlen, hnw, hwlt, hrefs, har⟩ := hinv
  refine ⟨?_, hnw, ?_, ?_, ?_⟩
  · calc n ≤ h.length := hlen
      _ ≤ (h ++ ext).length := by simp
  · calc w < h.length := hwlt
      _ ≤ (h ++ ext).length := by simp
  · rw [fmEntryRefs_append h ext w hwlt har]
    exact hrefs
  · intro ar hrar
    rw [fmArrRef_append h ext w hwlt] at hrar
    calc ar < h.length := har ar hrar
      _ ≤ (h ++ ext).length := by simp


/-- Frame and invariant preservation for the `firstMatch`-creating
mutation (`w3cCapabilities.firstMatch = [{k: v}]`, lines 140-141): the
two fresh allocations and the field update touch nothing below `w`
(hence nothing below the watermark). -/
lemma injectAlloc_frame (n : Nat) (h : Heap) (w : Nat) (am : Option Nat)
    (k : CapKey) (v : Value)
    (hlen : n ≤ h.length) (hnw : n ≤ w) (hwlt : w < h.length) :
    HeapPhaseInv n
      (setObj ((h ++ [HObj.dict [(k, v)]]) ++ [HObj.arr [h.length]]) w
        (HObj.w3cObj am (some (h ++ [HObj.dict [(k, v)]]).length))) w ∧
    ∀ i, i < n →
      getObj (setObj ((h ++ [HObj.dict [(k, v)]]) ++ [HObj.arr [h.length]]) w
        (HObj.w3cObj am (some (h ++ [HObj.dict [(k, v)]]).length))) i =
      getObj h i := by
  have hwlt2 : w < ((h ++ [HObj.dict [(k, v)]]) ++
      [HObj.arr [h.length]]).length := by
    simp only [List.length_append, List.length_cons, List.length_nil]
    omega
  have hres : getObj (setObj ((h ++ [HObj.dict [(k, v)]]) ++
      [HObj.arr [h.length]]) w
      (HObj.w3cObj am (some (h ++ [HObj.dict [(k, v)]]).length))) w =
      HObj.w3cObj am (some (h ++ [HObj.dict [(k, v)]]).length) :=
    getObj_set_self _ w _ hwlt2
  constructor
  · refine ⟨?_, hnw, ?_, ?_, ?_⟩
    · simp only [setObj, List.length_set, List.length_append,
        List.length_cons, List.length_nil]
      omega
    · simp only [setObj, List.length_set, List.length_append,
        List.length_cons, List.length_nil]
      omega
    · unfold fmEntryRefs
      rw [hres]
      dsimp only
      have haw : (h ++ [HObj.dict [(k, v)]]).length ≠ w := by
        simp only [List.length_append, List.length_cons, List.length_nil]
        omega
      rw [getObj_set_ne _ w _ _ haw, getObj_concat_self]
      intro e he
      simp only [List.mem_singleton] at he
      omega
    · unfold fmArrRef
      rw [hres]
      dsimp only
      intro ar harr
      have haa : ar = (h ++ [HObj.dict [(k, v)]]).length :=
        (Option.some.inj harr).symm
      simp only [haa, setObj, List.length_set, List.length_append,
        List.length_cons, List.length_nil]
      omega
  · intro i hi
    have hiw : i ≠ w := by omega
    rw [getObj_set_ne _ w _ i hiw]
    have hi1 : i < (h ++ [HObj.dict [(k, v)]]).length := by
      simp only [List.length_append, List.length_cons, List.length_nil]
      omega
    rw [getObj_append_lt _ _ i hi1, getObj_append_lt h _ i (by omega)]

/-- Frame and invariant preservation for the in-place default write
(`w3cCapabilities.firstMatch[0][k] = v`, line 143): the written
reference comes from the cloned payload, so it lies at or above the
watermark. -/
lemma injectMutate_frame (n : Nat) (h : Heap) (w r0 : Nat)
    (am fm : Option Nat) (k : CapKey) (v : Value)
    (hlen : n ≤ h.length) (hnw : n ≤ w) (hwlt : w < h.length)
    (hrefs : ∀ e ∈ fmEntryRefs h w, n ≤ e)
    (har : ∀ ar, fmArrRef h w = some ar → ar < h.length)
    (hobj : getObj h w = HObj.w3cObj am fm)
    (hmem0 : r0 ∈ fmEntryRefs h w) :
    HeapPhaseInv n
      (setObj h r0 (HObj.dict (objSet (dictEntriesAt h r0) k v))) w ∧
    ∀ i, i < n →
      getObj (setObj h r0 (HObj.dict (objSet (dictEntriesAt h r0) k v))) i =
      getObj h i := by
  have hr0n : n ≤ r0 := hrefs r0 hmem0
  by_cases hr0len : r0 < h.length
  · constructor
    · by_cases hr0w : r0 = w
      · have hres : getObj (setObj h r0
            (HObj.dict (objSet (dictEntriesAt h r0) k v))) w =
            HObj.dict (objSet (dictEntriesAt h r0) k v) := by
          rw [← hr0w]
          exact getObj_set_self h r0 _ hr0len
        refine ⟨by simpa [setObj] using hlen, hnw,
          by simpa [setObj] using hwlt, ?_, ?_⟩
        · unfold fmEntryRefs
          rw [hres]
          intro e he
          exact absurd he (List.not_mem_nil e)
        · unfold fmArrRef
          rw [hres]
          intro ar harr
          exact Option.noConfusion harr
      · have hresw : getObj (setObj h r0
            (HObj.dict (objSet (dictEntriesAt h r0) k v))) w =
            HObj.w3cObj am fm := by
          rw [getObj_set_ne h r0 _ w (fun hww => hr0w hww.symm)]
          exact hobj
        cases fm with
        | none =>
          refine ⟨by simpa [setObj] using hlen, hnw,
            by simpa [setObj] using hwlt, ?_, ?_⟩
          · unfold fmEntryRefs
            rw [hresw]
            intro e he
            exact absurd he (List.not_mem_nil e)
          · unfold fmArrRef
            rw [hresw]
            intro ar harr
            dsimp only at harr
            exact Option.noConfusion harr
        | some ar =>
          have harlt : ar < h.length :=
            har ar (by simp only [fmArrRef, hobj])
          have hfmh : fmEntryRefs h w =
              (match getObj h ar with
               | HObj.arr es => es
               | _ => []) := by
            simp only [fmEntryRefs, hobj]
          refine ⟨by simpa [setObj] using hlen, hnw,
            by simpa [setObj] using hwlt, ?_, ?_⟩
          · unfold fmEntryRefs
            rw [hresw]
            dsimp only
            by_cases hr0ar : r0 = ar
            · rw [← hr0ar, getObj_set_self h r0 _ hr0len]
              intro e he
              exact absurd he (List.not_mem_nil e)
            · rw [getObj_set_ne h r0 _ ar (fun haa => hr0ar haa.symm)]
              intro e he
              refine hrefs e ?_
              rw [hfmh]
              exact he
          · unfold fmArrRef
            rw [hresw]
            dsimp only
            intro ar' harr
            have haa : ar' = ar := (Option.some.inj harr).symm
            simp only [setObj, List.length_set, haa]
            exact harlt
    · intro i hi
      exact getObj_set_ne h r0 _ i (by omega)
  · have hid : setObj h r0 (HObj.dict (objSet (dictEntriesAt h r0) k v)) =
        h := by
      unfold setObj
      exact List.set_eq_of_length_le (Nat.le_of_not_lt hr0len)
    rw [hid]
    exact ⟨⟨hlen, hnw, hwlt, hrefs, har⟩, fun i _ => rfl⟩

lemma injectDefaultH_frame (n : Nat) (h : Heap) (w : Nat)
    (k : CapKey) (v : Value) (hinv : HeapPhaseInv n h w) :
    HeapPhaseInv n (injectDefaultH h w k v) w ∧
    ∀ i, i < n → getObj (injectDefaultH h w k v) i = getObj h i := by
  obtain ⟨hlen, hnw, hwlt, hrefs, har⟩ := hinv
  have hskip : HeapPhaseInv n h w ∧
      ∀ i, i < n → getObj h i = getObj h i :=
    ⟨⟨hlen, hnw, hwlt, hrefs, har⟩, fun i _ => rfl⟩
  unfold injectDefaultH
  cases hobj : getObj h w with
  | dict d => exact hskip
  | arr es => exact hskip
  | w3cObj am fm =>
    cases fm with
    | none =>
      dsimp only
      cases am with
      | none =>
        split
        · exact hskip
        · exact injectAlloc_frame n h w none k v hlen hnw hwlt
      | some amr =>
        split
        · exact hskip
        · exact injectAlloc_frame n h w (some amr) k v hlen hnw hwlt
    | some ar =>
      dsimp only
      cases harr : getObj h ar with
      | arr es =>
        dsimp only
        have hmem : ∀ r0 rs, es = r0 :: rs → r0 ∈ fmEntryRefs h w := by
          intro r0 rs hes
          simp only [fmEntryRefs, hobj, harr, hes]
          exact List.mem_cons_self _ _
        cases am with
        | none =>
          split
          · exact hskip
          · cases hes : es with
            | nil => exact injectAlloc_frame n h w none k v hlen hnw hwlt
            | cons r0 rs =>
              exact injectMutate_frame n h w r0 none (some ar) k v
                hlen hnw hwlt hrefs har hobj (hmem r0 rs hes)
        | some amr =>
          split
          · exact hskip
          · cases hes : es with
            | nil => exact injectAlloc_frame n h w (some amr) k v hlen hnw hwlt
            | cons r0 rs =>
              exact injectMutate_frame n h w r0 (some amr) (some ar) k v
                hlen hnw hwlt hrefs har hobj (hmem r0 rs hes)
      | dict d =>
        dsimp only
        cases am with
        | none =>
          split
          · exact hskip
          · exact injectAlloc_frame n h w none k v hlen hnw hwlt
        | some amr =>
          split
          · exact hskip
          · exact injectAlloc_frame n h w (some amr) k v hlen hnw hwlt
      | w3cObj am2 fm2 =>
        dsimp only
        cases am with
        | none =>
          split
          · exact hskip
          · exact injectAlloc_frame n h w none k v hlen hnw hwlt
        | some amr =>
          split
          · exact hskip
          · exact injectAlloc_frame n h w (some amr) k v hlen hnw hwlt

lemma injectDefaultsH_frame (n : Nat) :
    ∀ (defaults : Dict) (h : Heap) (w : Nat), HeapPhaseInv n h w →
      HeapPhaseInv n (injectDefaultsH h w defaults) w ∧
      ∀ i, i < n → getObj (injectDefaultsH h w defaults) i = getObj h i
  | [], _, _, hinv => ⟨hinv, fun _ _ => rfl⟩
  | p :: rest, h, w, hinv => by
    obtain ⟨hinv1, hag1⟩ := injectDefaultH_frame n h w p.1 p.2 hinv
    obtain ⟨hinv2, hag2⟩ :=
      injectDefaultsH_frame n rest (injectDefaultH h w p.1 p.2) w hinv1
    have hdef : injectDefaultsH h w (p :: rest) =
        injectDefaultsH (injectDefaultH h w p.1 p.2) w rest := rfl
    rw [hdef]
    exact ⟨hinv2, fun i hi => (hag2 i hi).trans (hag1 i hi)⟩

lemma cloneDictList_spec :
    ∀ (rs : List Nat) (h : Heap),
      h.length ≤ (cloneDictList h rs).1.length ∧
      (∀ i, i < h.length → getObj (cloneDictList h rs).1 i = getObj h i) ∧
      (∀ r' ∈ (cloneDictList h rs).2,
        h.length ≤ r' ∧ r' < (cloneDictList h rs).1.length)
  | [], h => ⟨le_refl _, fun _ _ => rfl, fun r' hr' =>
      absurd hr' (List.not_mem_nil r')⟩
  | r :: rs, h => by
    have hcons : cloneDictList h (r :: rs) =
        ((cloneDictList (h ++ [HObj.dict (dictEntriesAt h r)]) rs).1,
         h.length ::
           (cloneDictList (h ++ [HObj.dict (dictEntriesAt h r)]) rs).2) := rfl
    obtain ⟨hlen2, hag2, hrefs2⟩ :=
      cloneDictList_spec rs (h ++ [HObj.dict (dictEntriesAt h r)])
    rw [hcons]
    dsimp only
    have hstep : h.length < (h ++ [HObj.dict (dictEntriesAt h r)]).length := by
      simp
    refine ⟨by omega, ?_, ?_⟩
    · intro i hi
      rw [hag2 i (by omega), getObj_append_lt h _ i hi]
    · intro r' hr'
      rcases List.mem_cons.mp hr' with rfl | hmem
      · exact ⟨le_refl _, by omega⟩
      · obtain ⟨ha, hb⟩ := hrefs2 r' hmem
        exact ⟨by omega, hb⟩

lemma allocPayloadNone_spec (n : Nat) (hA : Heap) (am' : Option Nat)
    (hn : n ≤ hA.length) :
    HeapPhaseInv n (hA ++ [HObj.w3cObj am' none]) hA.length := by
  have hres : getObj (hA ++ [HObj.w3cObj am' none]) hA.length =
      HObj.w3cObj am' none := getObj_concat_self hA _
  refine ⟨by simp; omega, hn, by simp, ?_, ?_⟩
  · unfold fmEntryRefs
    rw [hres]
    intro e he
    exact absurd he (List.not_mem_nil e)
  · unfold fmArrRef
    rw [hres]
    intro ar harr
    exact Option.noConfusion harr

lemma allocPayload_spec (n : Nat) (hb : Heap) (es' : List Nat)
    (am' : Option Nat) (hn : n ≤ hb.length) (hes : ∀ e ∈ es', n ≤ e) :
    HeapPhaseInv n
      ((hb ++ [HObj.arr es']) ++ [HObj.w3cObj am' (some hb.length)])
      (hb ++ [HObj.arr es']).length := by
  have hres : getObj
      ((hb ++ [HObj.arr es']) ++ [HObj.w3cObj am' (some hb.length)])
      (hb ++ [HObj.arr es']).length =
      HObj.w3cObj am' (some hb.length) := getObj_concat_self _ _
  have harrv : getObj
      ((hb ++ [HObj.arr es']) ++ [HObj.w3cObj am' (some hb.length)])
      hb.length = HObj.arr es' := by
    rw [getObj_append_lt (hb ++ [HObj.arr es']) _ hb.length (by simp),
      getObj_concat_self hb _]
  refine ⟨?_, ?_, ?_, ?_, ?_⟩
  · simp only [List.length_append, List.length_cons, List.length_nil]
    omega
  · simp only [List.length_append, List.length_cons, List.length_nil]
    omega
  · simp only [List.length_append, List.length_cons, List.length_nil]
    omega
  · unfold fmEntryRefs
    rw [hres]
    dsimp only
    rw [harrv]
    exact hes
  · unfold fmArrRef
    rw [hres]
    dsimp only
    intro ar harr
    have haa : ar = hb.length := (Option.some.inj harr).symm
    simp only [haa, List.length_append, List.length_cons, List.length_nil]
    omega

lemma cloneW3cTailNone_spec (h hA : Heap) (am' : Option Nat)
    (hlenA : h.length ≤ hA.length)
    (hagA : ∀ i, i < h.length → getObj hA i = getObj h i) :
    h.length ≤ (hA ++ [HObj.w3cObj am' none]).length ∧
    (∀ i, i < h.length →
      getObj (hA ++ [HObj.w3cObj am' none]) i = getObj h i) ∧
    HeapPhaseInv h.length (hA ++ [HObj.w3cObj am' none]) hA.length := by
  refine ⟨?_, ?_, allocPayloadNone_spec h.length hA am' hlenA⟩
  · simp only [List.length_append, List.length_cons, List.length_nil]
    omega
  · intro i hi
    rw [getObj_append_lt hA _ i (by omega), hagA i hi]

lemma cloneW3cTail_spec (h hA : Heap) (elems : List Nat) (am' : Option Nat)
    (hlenA : h.length ≤ hA.length)
    (hagA : ∀ i, i < h.length → getObj hA i = getObj h i) :
    h.length ≤ (((cloneDictList hA elems).1 ++
      [HObj.arr (cloneDictList hA elems).2]) ++
      [HObj.w3cObj am' (some (cloneDictList hA elems).1.length)]).length ∧
    (∀ i, i < h.length →
      getObj (((cloneDictList hA elems).1 ++
        [HObj.arr (cloneDictList hA elems).2]) ++
        [HObj.w3cObj am' (some (cloneDictList hA elems).1.length)]) i =
      getObj h i) ∧
    HeapPhaseInv h.length
      (((cloneDictList hA elems).1 ++
        [HObj.arr (cloneDictList hA elems).2]) ++
        [HObj.w3cObj am' (some (cloneDictList hA elems).1.length)])
      ((cloneDictList hA elems).1 ++
        [HObj.arr (cloneDictList hA elems).2]).length := by
  obtain ⟨hlenb, hagb, hrefsb⟩ := cloneDictList_spec elems hA
  refine ⟨?_, ?_, ?_⟩
  · simp only [List.length_append, List.length_cons, List.length_nil]
    omega
  · intro i hi
    rw [getObj_append_lt _ _ i (by
        simp only [List.length_append, List.length_cons, List.length_nil]
        omega),
      getObj_append_lt _ _ i (by omega),
      hagb i (by omega), hagA i hi]
  · exact allocPayload_spec h.length (cloneDictList hA elems).1
      (cloneDictList hA elems).2 am' (by omega)
      (fun e he => by
        obtain ⟨ha, _⟩ := hrefsb e he
        omega)

lemma cloneW3c_spec (h : Heap) (r : Nat) :
    h.length ≤ (cloneW3c h r).1.length ∧
    (∀ i, i < h.length → getObj (cloneW3c h r).1 i = getObj h i) ∧
    HeapPhaseInv h.length (cloneW3c h r).1 (cloneW3c h r).2 := by
  unfold cloneW3c
  cases hobj : getObj h r with
  | dict d =>
    simp only [allocObj]
    have hres : getObj (h ++ [HObj.dict d]) h.length = HObj.dict d :=
      getObj_concat_self h _
    refine ⟨by simp, fun i hi => getObj_append_lt h _ i hi,
      by simp, le_refl _, by simp, ?_, ?_⟩
    · unfold fmEntryRefs
      rw [hres]
      intro e he
      exact absurd he (List.not_mem_nil e)
    · unfold fmArrRef
      rw [hres]
      intro ar harr
      exact Option.noConfusion harr
  | arr es =>
    simp only [allocObj]
    have hres : getObj (h ++ [HObj.arr es]) h.length = HObj.arr es :=
      getObj_concat_self h _
    refine ⟨by simp, fun i hi => getObj_append_lt h _ i hi,
      by simp, le_refl _, by simp, ?_, ?_⟩
    · unfold fmEntryRefs
      rw [hres]
      intro e he
      exact absurd he (List.not_mem_nil e)
    · unfold fmArrRef
      rw [hres]
      intro ar harr
      exact Option.noConfusion harr
  | w3cObj am fm =>
    cases am with
    | none =>
      cases fm with
      | none =>
        simp only [allocObj]
        exact cloneW3cTailNone_spec h h none (le_refl _) (fun _ _ => rfl)
      | some fr =>
        simp only [allocObj]
        exact cloneW3cTail_spec h h _ none (le_refl _) (fun _ _ => rfl)
    | some amr =>
      cases fm with
      | none =>
        simp only [allocObj]
        exact cloneW3cTailNone_spec h
          (h ++ [HObj.dict (dictEntriesAt h amr)]) (some h.length)
          (by simp) (fun i hi => getObj_append_lt h _ i hi)
      | some fr =>
        simp only [allocObj]
        exact cloneW3cTail_spec h
          (h ++ [HObj.dict (dictEntriesAt h amr)]) _ (some h.length)
          (by simp) (fun i hi => getObj_append_lt h _ i hi)

lemma heapPhaseInv_mono (n n' : Nat) (h : Heap) (w : Nat) (hnn : n ≤ n')
    (hinv : HeapPhaseInv n' h w) : HeapPhaseInv n h w := by
  obtain ⟨a, b, c, d, e⟩ := hinv
  exact ⟨by omega, by omega, c, fun x hx => by have := d x hx; omega, e⟩

/-- C4: `parseCapsForInnerDriver` never observably mutates the caller's
legacy-capability dictionary, W3C payload, or default-capabilities
dictionary, on any return path.  In the heap model of its caller-visible
phase (classification, early return, the deep clones of lines 114-117,
default injection, legacy merge — everything after only allocates fresh
objects), every heap object that existed before the call is unchanged
afterwards. -/
theorem parseCapsMutationPhase_frame (h : Heap)
    (jsonwpRef w3cRef : Option Nat) (defaultsRef : Nat) (i : Nat)
    (hi : i < h.length) :
    getObj (parseCapsMutationPhase h jsonwpRef w3cRef defaultsRef) i =
      getObj h i := by
  unfold parseCapsMutationPhase
  dsimp only
  cases w3cRef with
  | none => rfl
  | some wr =>
    dsimp only
    cases hwobj : getObj h wr with
    | dict d => rfl
    | arr es => rfl
    | w3cObj am fm =>
      dsimp only
      by_cases hcond : (am.isSome || fm.isSome) = true
      · rw [hcond, if_neg (by simp)]
        cases jsonwpRef with
        | none =>
          simp only [allocObj]
          obtain ⟨hlen2, hag2, hinv2⟩ := cloneW3c_spec h wr
          rcases hcw : cloneW3c h wr with ⟨h2, w⟩
          rw [hcw] at hlen2 hag2 hinv2
          dsimp only at hlen2 hag2 hinv2
          split
          · have hinv3 : HeapPhaseInv h.length
                (h2 ++ [HObj.dict (dictEntriesAt h2 defaultsRef)]) w :=
              heapPhaseInv_append h.length h2 _ w hinv2
            obtain ⟨hinv4, hag4⟩ :=
              injectDefaultsH_frame h.length _ _ w hinv3
            rw [hag4 i hi, getObj_append_lt h2 _ i (by omega)]
            exact hag2 i hi
          · rw [getObj_append_lt h2 _ i (by omega)]
            exact hag2 i hi
        | some jr0 =>
          simp only [allocObj]
          obtain ⟨hlen2, hag2, hinv2⟩ :=
            cloneW3c_spec (h ++ [HObj.dict (dictEntriesAt h jr0)]) wr
          rcases hcw : cloneW3c (h ++ [HObj.dict (dictEntriesAt h jr0)]) wr
            with ⟨h2, w⟩
          rw [hcw] at hlen2 hag2 hinv2
          dsimp only at hlen2 hag2 hinv2
          dsimp only
          have hlen1 : (h ++ [HObj.dict (dictEntriesAt h jr0)]).length =
              h.length + 1 := by simp
          have hinv2' : HeapPhaseInv h.length h2 w :=
            heapPhaseInv_mono h.length _ h2 w (by omega) hinv2
          split
          · have hinv3 : HeapPhaseInv h.length
                (h2 ++ [HObj.dict (dictEntriesAt h2 defaultsRef)]) w :=
              heapPhaseInv_append h.length h2 _ w hinv2'
            obtain ⟨hinv4, hag4⟩ :=
              injectDefaultsH_frame h.length
                (dictEntriesAt
                  (h2 ++ [HObj.dict (dictEntriesAt h2 defaultsRef)])
                  h2.length)
                (h2 ++ [HObj.dict (dictEntriesAt h2 defaultsRef)]) w hinv3
            obtain ⟨hlen4, _, _, _, _⟩ := hinv4
            rw [getObj_append_lt _ _ i (by omega), hag4 i hi,
              getObj_append_lt h2 _ i (by omega), hag2 i (by omega)]
            exact getObj_append_lt h _ i hi
          · rw [getObj_append_lt h2 _ i (by omega), hag2 i (by omega)]
            exact getObj_append_lt h _ i hi
      · cases am with
        | none =>
          cases fm with
          | none => rfl
          | some f => exact absurd (by simp) hcond
        | some a => exact absurd (by simp) hcond

/-- C4 witness: a concrete heap — legacy dictionary at 4, payload object
at 3 (with `alwaysMatch` at 0 and a `firstMatch` entry at 1 through the
array at 2), non-empty defaults at 5 — on which the whole mutation phase
(clones, injection, legacy merge) runs, leaving the caller's object at
reference 0 unchanged. -/
theorem parseCapsMutationPhase_frame_witness :
    getObj (parseCapsMutationPhase
      [HObj.dict [("platformName".toList, Value.str "iOS".toList)],
       HObj.dict [],
       HObj.arr [1],
       HObj.w3cObj (some 0) (some 2),
       HObj.dict [(['a'], Value.num 1)],
       HObj.dict [(['b'], Value.num 2)]]
      (some 4) (some 3) 5) 0 =
    getObj
      [HObj.dict [("platformName".toList, Value.str "iOS".toList)],
       HObj.dict [],
       HObj.arr [1],
       HObj.w3cObj (some 0) (some 2),
       HObj.dict [(['a'], Value.num 1)],
       HObj.dict [(['b'], Value.num 2)]] 0 :=
  parseCapsMutationPhase_frame
    [HObj.dict [("platformName".toList, Value.str "iOS".toList)],
     HObj.dict [],
     HObj.arr [1],
     HObj.w3cObj (some 0) (some 2),
     HObj.dict [(['a'], Value.num 1)],
     HObj.dict [(['b'], Value.num 2)]]
    (some 4) (some 3) 5 0 (by decide)
